import Mathlib

/-!
Verification of the `Args` command-line parsing library (C++).

The repository ships two revisions of the library side by side:
* variant A (camelCase identifiers: `addArgument`, `optionals`, the
  "print help on empty input" policy, the "missing positional argument"
  sweep), and
* variant B (snake_case identifiers: `add_argument`, `options`, a
  `required_` flag set on positionals, the "missing required argument"
  sweep, no empty-input help policy).

Both share the same token feed, the same dispatch loop (variant B
additionally records the set of parsed arguments, which only its
required-argument sweep reads), the same value binders, the same
`wrap` word-wrap helper and the same help-ordering comparator.  The
embedding below models the shared machinery once and provides `parseA`
and `parseB` for the two `Parser::parse` entry points, plus
`addArgument` / `add_argument` for the two registration functions.

A single quote character is written `(Char.ofNat 39)` throughout; `sq`
is the corresponding one-character string used inside error messages.
-/

namespace Args

/-- One-character string holding a single quote (ASCII 39). -/
def sq : String := (Char.ofNat 39).toString

/-- The bound value of a caller-supplied variable.  The library binds
`bool`, `std::string` and arithmetic types; the claims under scrutiny
only exercise the boolean, string and integral binders. -/
inductive Value where
  | vBool (b : Bool)
  | vStr (s : String)
  | vInt (n : Int)
  deriving DecidableEq, Repr

/-- Static type tag of a binder (`ArgumentImpl<T>`). -/
inductive ArgType where
  | tBool
  | tStr
  | tInt
  deriving DecidableEq, Repr

/-- `ArgumentImpl<T>::numParams()`: 0 for `bool`, 1 otherwise. -/
def numParams : ArgType → Nat
  | .tBool => 0
  | _ => 1

/-- Argument descriptor (`Argument` = `ArgumentConfig` metadata plus the
binder's type tag).  `required_` exists only in variant B; variant A's
code never reads it and its registration leaves it `false`. -/
structure Argument where
  names : List String
  ty : ArgType
  required_ : Bool
  help_ : String
  deriving DecidableEq, Repr

instance : Inhabited Argument := ⟨⟨[], .tBool, false, ""⟩⟩

/-- Parser/registry state (`Parser`'s fields shared by both variants;
variant B calls `optionals` "options" and `setupErrors`
"setup_errors").  Optional aliases index arguments by their position in
`arguments`; `positionals` lists positions of positional arguments in
declaration order. -/
structure ParserState where
  arguments : List Argument
  positionals : List Nat
  optionals : List (String × Nat)
  setupErrors : List String
  deriving DecidableEq, Repr

/-- `std::unordered_map::emplace`: inserts only when the key is absent
(an existing binding is never overwritten). -/
def emplaceAlias (m : List (String × Nat)) (k : String) (v : Nat) : List (String × Nat) :=
  if (m.lookup k).isSome then m else m ++ [(k, v)]

/-- Alias lookup (`optionals.find(token)` / `options.find(token)`). -/
def lookupAlias (m : List (String × Nat)) (k : String) : Option Nat :=
  m.lookup k

/-- The name-classification loop shared by `Parser::addArgument` and
`Parser::add_argument`: walks the name list, recording "empty argument
name" for empty names (which are skipped by the classification), taking
the first nonempty name's leading-dash convention as the argument's
convention and recording "all argument's names must either be optional
or positional" for every later nonempty name that disagrees.  Returns
the classification (`none` when every name was empty: in C++ the
subsequent dereference of the unengaged `std::optional<bool>` is
undefined behaviour) together with the recorded setup errors. -/
def classifyNames : List String → Option Bool → (Option Bool × List String)
  | [], acc => (acc, [])
  | n :: ns, acc =>
    if n.isEmpty then
      let r := classifyNames ns acc
      (r.1, "empty argument name" :: r.2)
    else
      let isNameOpt : Bool := n.toList.headD ' ' == '-'
      match acc with
      | none => classifyNames ns (some isNameOpt)
      | some b =>
        if b != isNameOpt then
          let r := classifyNames ns (some b)
          (r.1, "all argument's names must either be optional or positional" :: r.2)
        else
          classifyNames ns (some b)

/-- Variant A `Parser::addArgument`: pushes the descriptor, classifies
the names, then registers every name as an optional alias (via
`emplace`) or appends the descriptor to the positional list.  The
unengaged-optional dereference (all names empty) is modelled as
`false`, i.e. positional. -/
def addArgument (p : ParserState) (ty : ArgType) (names : List String) (help_ : String) :
    ParserState :=
  let idx := p.arguments.length
  let arguments := p.arguments ++ [⟨names, ty, false, help_⟩]
  let c := classifyNames names none
  let setupErrors := p.setupErrors ++ c.2
  if c.1.getD false then
    { p with arguments, setupErrors,
             optionals := names.foldl (fun m n => emplaceAlias m n idx) p.optionals }
  else
    { p with arguments, setupErrors, positionals := p.positionals ++ [idx] }

/-- Variant B `Parser::add_argument`: same as `addArgument` except the
classification precedes the push and a positional argument is marked
`required_ = true`. -/
def add_argument (p : ParserState) (ty : ArgType) (names : List String) (help_ : String) :
    ParserState :=
  let idx := p.arguments.length
  let c := classifyNames names none
  let setupErrors := p.setupErrors ++ c.2
  if c.1.getD false then
    { p with arguments := p.arguments ++ [⟨names, ty, false, help_⟩], setupErrors,
             optionals := names.foldl (fun m n => emplaceAlias m n idx) p.optionals }
  else
    { p with arguments := p.arguments ++ [⟨names, ty, true, help_⟩], setupErrors,
             positionals := p.positionals ++ [idx] }

/-- The empty registry (before the constructor runs). -/
def emptyParser : ParserState := ⟨[], [], [], []⟩

/-- Variant A `Parser::Parser()`: pre-registers the help argument. -/
def parserInitA : ParserState :=
  addArgument emptyParser .tBool ["--help", "-h"] "Display this help message and quit"

/-- Variant B `Parser::Parser()`. -/
def parserInitB : ParserState :=
  add_argument emptyParser .tBool ["--help", "-h"] "Display this help message and quit"

/-! ### The `strtol` model -/

/-- The whitespace set used both by C `isspace` (in the `strtol`
model) and by the `WHITESPACES` constant of `wrap`. -/
def cIsSpace (c : Char) : Bool :=
  c == ' ' || c == '\x0c' || c == '\n' || c == '\r' || c == '\t' || c == '\x0b'

/-- `LONG_MAX` on the 64-bit targets the library builds for. -/
def LONG_MAX : Int := 2 ^ 63 - 1

/-- `LONG_MIN`. -/
def LONG_MIN : Int := -(2 ^ 63)

/-- Result of `std::strtol(cstr, &endptr, 10)` with `errno` cleared
beforehand: the returned value, `endptr - cstr`, and whether `errno`
was set to `ERANGE` (overflow, with the value clamped). -/
structure StrtolResult where
  value : Int
  consumed : Nat
  overflow : Bool
  deriving DecidableEq, Repr

/-- Base-10 `strtol`: skip `isspace` characters, accept one optional
sign, then base-10 digits.  When no digit is consumed the result is 0
with `endptr == cstr` (modelled as `consumed = 0`). -/
def strtolModel (s : List Char) : StrtolResult :=
  let ws := (s.takeWhile cIsSpace).length
  let rest := s.drop ws
  let signLen : Nat := match rest with
    | '-' :: _ => 1
    | '+' :: _ => 1
    | _ => 0
  let sign : Int := match rest with
    | '-' :: _ => -1
    | _ => 1
  let digits := (rest.drop signLen).takeWhile Char.isDigit
  if digits.length = 0 then ⟨0, 0, false⟩
  else
    let v : Int := sign * (digits.foldl (fun a c => a * 10 + (c.toNat - 48)) (0 : Nat) : Nat)
    if v > LONG_MAX then ⟨LONG_MAX, ws + signLen + digits.length, true⟩
    else if v < LONG_MIN then ⟨LONG_MIN, ws + signLen + digits.length, true⟩
    else ⟨v, ws + signLen + digits.length, false⟩

/-! ### The dispatch loop -/

/-- State threaded through `Parser::parse`'s dispatch loop: the feed
cursor (`ArgumentParseFeed::index`), the shared parse-error list, the
caller-owned bound-variable store (indexed like `arguments`; slot 0 is
the parser's own `helpRequest` flag), the positional cursor, and
variant B's `parsedArgs` set (variant A's loop is identical except
that it does not record this set, which only variant B's
required-argument sweep reads). -/
structure LoopState where
  idx : Nat
  errors : List String
  store : List Value
  positionalIndex : Nat
  parsedArgs : List Nat
  deriving DecidableEq, Repr

/-- `std::set::emplace` on the parsed-arguments set. -/
def insertParsed (s : List Nat) (ai : Nat) : List Nat :=
  if s.contains ai then s else s ++ [ai]

/-- Descriptor at index `ai` of the registry. -/
def argAt (p : ParserState) (ai : Nat) : Argument :=
  p.arguments.getD ai default

/-- `ArgumentImpl<T>::parse(feed)`: the value binder.  Boolean: set the
bound variable to `true`, consume nothing.  String: pop one token
verbatim.  Integral: pop one token, convert with base-10 `strtol`,
store the (possibly clamped) result, then record "failed to parse
'<token>' as number" when `errno` was set or no character was
consumed. -/
def binderParse (p : ParserState) (tokens : List String) (ai : Nat) (st : LoopState) :
    LoopState :=
  match (argAt p ai).ty with
  | .tBool => { st with store := st.store.set ai (.vBool true) }
  | .tStr =>
    let next := tokens.getD st.idx ""
    { st with idx := st.idx + 1, store := st.store.set ai (.vStr next) }
  | .tInt =>
    let next := tokens.getD st.idx ""
    let r := strtolModel next.toList
    let st1 := { st with idx := st.idx + 1, store := st.store.set ai (.vInt r.value) }
    if r.overflow || r.consumed == 0 then
      { st1 with errors := st1.errors ++
          ["failed to parse " ++ sq ++ next ++ sq ++ " as number"] }
    else st1

/-- One iteration of the dispatch loop body (`Parser::parse`'s `while`
body): peek the token; a registered optional alias is consumed and, if
`hasNext(numParams)` fails, "missing parameter" is recorded, otherwise
the binder runs; otherwise the next unconsumed positional's binder
runs; otherwise "unknown argument" is recorded. -/
def stepLoop (p : ParserState) (tokens : List String) (st : LoopState) : LoopState :=
  let token := tokens.getD st.idx ""
  match lookupAlias p.optionals token with
  | some ai =>
    let st1 := { st with idx := st.idx + 1 }
    if st1.idx + numParams (argAt p ai).ty ≤ tokens.length then
      let st2 := binderParse p tokens ai st1
      { st2 with parsedArgs := insertParsed st2.parsedArgs ai }
    else
      { st1 with errors := st1.errors ++
          ["missing parameter for argument " ++ sq ++ token ++ sq] }
  | none =>
    if h : st.positionalIndex < p.positionals.length then
      let ai := p.positionals.get ⟨st.positionalIndex, h⟩
      let st2 := binderParse p tokens ai { st with positionalIndex := st.positionalIndex + 1 }
      { st2 with parsedArgs := insertParsed st2.parsedArgs ai }
    else
      { st with errors := st.errors ++ ["unknown argument " ++ sq ++ token ++ sq] }

theorem binderParse_idx (p : ParserState) (tokens : List String) (ai : Nat) (st : LoopState) :
    st.idx ≤ (binderParse p tokens ai st).idx ∧
      (binderParse p tokens ai st).idx ≤ st.idx + 1 := by
  unfold binderParse
  rcases (argAt p ai).ty <;> simp <;> split <;> simp

theorem binderParse_positionalIndex (p : ParserState) (tokens : List String) (ai : Nat)
    (st : LoopState) :
    (binderParse p tokens ai st).positionalIndex = st.positionalIndex := by
  unfold binderParse
  rcases (argAt p ai).ty <;> simp <;> split <;> simp

theorem binderParse_errors (p : ParserState) (tokens : List String) (ai : Nat)
    (st : LoopState) :
    (binderParse p tokens ai st).errors = st.errors ∨
      ∃ e, (binderParse p tokens ai st).errors = st.errors ++ [e] := by
  unfold binderParse
  rcases (argAt p ai).ty <;> simp
  split
  · right; exact ⟨_, rfl⟩
  · left; rfl

/-- Measure justifying termination of the dispatch loop: every
error-free iteration advances the feed cursor or the positional
cursor. -/
theorem stepLoop_measure (p : ParserState) (tokens : List String) (st : LoopState)
    (h1 : st.idx < tokens.length)
    (herr : (stepLoop p tokens st).errors = []) :
    tokens.length - (stepLoop p tokens st).idx +
        (p.positionals.length - (stepLoop p tokens st).positionalIndex) <
      tokens.length - st.idx + (p.positionals.length - st.positionalIndex) := by
  unfold stepLoop at herr ⊢
  rcases hlk : lookupAlias p.optionals (tokens.getD st.idx "") with _ | ai <;>
      simp only [hlk] at herr ⊢
  · by_cases hp : st.positionalIndex < p.positionals.length
    · rw [dif_pos hp] at herr ⊢
      have hi := binderParse_idx p tokens (p.positionals.get ⟨st.positionalIndex, hp⟩)
        { st with positionalIndex := st.positionalIndex + 1 }
      have hpi := binderParse_positionalIndex p tokens
        (p.positionals.get ⟨st.positionalIndex, hp⟩)
        { st with positionalIndex := st.positionalIndex + 1 }
      dsimp only at hi hpi ⊢
      omega
    · rw [dif_neg hp] at herr
      dsimp only at herr
      simp at herr
  · by_cases hn : st.idx + 1 + numParams (argAt p ai).ty ≤ tokens.length
    · rw [if_pos hn] at herr ⊢
      have hi := binderParse_idx p tokens ai { st with idx := st.idx + 1 }
      have hpi := binderParse_positionalIndex p tokens ai { st with idx := st.idx + 1 }
      dsimp only at hi hpi ⊢
      omega
    · rw [if_neg hn] at herr
      dsimp only at herr
      simp at herr

/-- The dispatch loop (`while (feed.hasNext() && parseErrors.empty())`)
unrolled on an explicit iteration budget.  `stepLoop_measure` shows
each error-free iteration decreases `(length - idx) + (positionals -
positionalIndex)`, so a budget exceeding that measure makes the fueled
loop agree with the C++ `while` loop (`runLoop_finished`). -/
def runLoopFuel (p : ParserState) (tokens : List String) : Nat → LoopState → LoopState
  | 0, st => st
  | fuel + 1, st =>
    if st.idx < tokens.length ∧ st.errors = [] then
      runLoopFuel p tokens fuel (stepLoop p tokens st)
    else st

/-- The dispatch loop, with a budget that always suffices. -/
def runLoop (p : ParserState) (tokens : List String) (st : LoopState) : LoopState :=
  runLoopFuel p tokens (tokens.length + p.positionals.length + 1) st

theorem runLoopFuel_of_errors (p : ParserState) (tokens : List String) (fuel : Nat)
    (st : LoopState) (h : st.errors ≠ []) : runLoopFuel p tokens fuel st = st := by
  cases fuel with
  | zero => rfl
  | succ n =>
    unfold runLoopFuel
    rw [if_neg]
    rintro ⟨-, h2⟩
    exact h h2

theorem runLoopFuel_finished (p : ParserState) (tokens : List String) (fuel : Nat)
    (st : LoopState)
    (h : tokens.length - st.idx + (p.positionals.length - st.positionalIndex) < fuel) :
    ¬((runLoopFuel p tokens fuel st).idx < tokens.length ∧
      (runLoopFuel p tokens fuel st).errors = []) := by
  induction fuel generalizing st with
  | zero => omega
  | succ n ih =>
    unfold runLoopFuel
    by_cases hc : st.idx < tokens.length ∧ st.errors = []
    · rw [if_pos hc]
      by_cases herr : (stepLoop p tokens st).errors = []
      · exact ih _ (by have := stepLoop_measure p tokens st hc.1 herr; omega)
      · rw [runLoopFuel_of_errors p tokens n _ herr]
        rintro ⟨-, h2⟩
        exact herr h2
    · rw [if_neg hc]
      exact hc

/-- The C++ `while` loop runs to completion: the fueled model's result
satisfies the loop's negated condition, i.e. the budget never runs out. -/
theorem runLoop_finished (p : ParserState) (tokens : List String) (st : LoopState) :
    ¬((runLoop p tokens st).idx < tokens.length ∧ (runLoop p tokens st).errors = []) :=
  runLoopFuel_finished p tokens _ st (by omega)

/-- Read the `helpRequest` flag out of the store (slot 0). -/
def asBool : Value → Bool
  | .vBool b => b
  | _ => false

/-- `names[0]` of the descriptor at index `ai`. -/
def argNamesHead (p : ParserState) (ai : Nat) : String :=
  (argAt p ai).names.getD 0 ""

/-- Observable outcome of one `Parser::parse` call: the boolean return
value, the `ERROR: `-prefixed lines written to `std::cerr`, whether
`printHelp` ran, the final bound-variable store, and how many tokens
the feed consumed. -/
structure ParseResult where
  success : Bool
  errOut : List String
  helpPrinted : Bool
  store : List Value
  consumed : Nat
  deriving DecidableEq, Repr

/-- Variant A `Parser::parse(argc, argv, from)`:
1. if a setup error exists, print the setup errors and fail;
2. build the working token list from `argv[from..]`;
3. print help and fail on an empty token list;
4. run the dispatch loop;
5. if the help flag is set, clear it, print help and fail;
6. sweep positionals not consumed this call ("missing positional
   argument");
7. dump the parse errors and fail if any, else succeed. -/
def parseA (p : ParserState) (argv : List String) (fromIdx : Nat) (store : List Value) :
    ParseResult :=
  if p.setupErrors.isEmpty then
    let args := argv.drop fromIdx
    if args.isEmpty then
      { success := false, errOut := [], helpPrinted := true, store := store, consumed := 0 }
    else
      let st := runLoop p args ⟨0, [], store, 0, []⟩
      if asBool (st.store.getD 0 (.vBool false)) then
        { success := false, errOut := [], helpPrinted := true,
          store := st.store.set 0 (.vBool false), consumed := st.idx }
      else
        let errs := st.errors ++
          (if st.positionalIndex ≠ p.positionals.length then
            (p.positionals.drop st.positionalIndex).map
              (fun ai => "missing positional argument " ++ sq ++ argNamesHead p ai ++ sq)
          else [])
        if errs.isEmpty then
          { success := true, errOut := [], helpPrinted := false, store := st.store,
            consumed := st.idx }
        else
          { success := false, errOut := errs.map (fun e => "ERROR: " ++ e),
            helpPrinted := false, store := st.store, consumed := st.idx }
  else
    { success := false, errOut := p.setupErrors.map (fun e => "ERROR: " ++ e),
      helpPrinted := false, store := store, consumed := 0 }

/-- Variant B `Parser::parse(argc, argv, from)`: as variant A but
without the empty-input help policy, and with the required-argument
sweep over all descriptors ("missing required argument") in place of
the positional sweep. -/
def parseB (p : ParserState) (argv : List String) (fromIdx : Nat) (store : List Value) :
    ParseResult :=
  if p.setupErrors.isEmpty then
    let args := argv.drop fromIdx
    let st := runLoop p args ⟨0, [], store, 0, []⟩
    if asBool (st.store.getD 0 (.vBool false)) then
      { success := false, errOut := [], helpPrinted := true,
        store := st.store.set 0 (.vBool false), consumed := st.idx }
    else
      let errs := st.errors ++
        ((List.range p.arguments.length).filterMap (fun i =>
          if (argAt p i).required_ && !(st.parsedArgs.contains i) then
            some ("missing required argument " ++ sq ++ argNamesHead p i ++ sq)
          else none))
      if errs.isEmpty then
        { success := true, errOut := [], helpPrinted := false, store := st.store,
          consumed := st.idx }
      else
        { success := false, errOut := errs.map (fun e => "ERROR: " ++ e),
          helpPrinted := false, store := st.store, consumed := st.idx }
  else
    { success := false, errOut := p.setupErrors.map (fun e => "ERROR: " ++ e),
      helpPrinted := false, store := store, consumed := 0 }

/-! ### The help formatter's ordering

`Parser::printHelp` sorts a working copy of the descriptor list with
`std::sort` and the comparator below.  `std::sort` guarantees only
that the output is a permutation of the input that is sorted with
respect to the comparator (no inversions); it is **not** stable, so
every such permutation is an admissible outcome.  `SortOutcome`
captures exactly this contract. -/

/-- `isHelpArgument`: `arg->names[0] == "--help"`. -/
def isHelpArgument (a : Argument) : Bool := a.names.getD 0 "" == "--help"

/-- `isOptionalArgument`: `arg->names[0][0] == '-'` (indexing an empty
`std::string` at 0 reads the null terminator). -/
def isOptionalArgument (a : Argument) : Bool :=
  (a.names.getD 0 "").toList.headD (Char.ofNat 0) == '-'

/-- The `std::sort` comparator of `printHelp`: help sorts last, and
positionals precede optionals (`bool` comparison: `false < true`). -/
def cmpArguments (a1 a2 : Argument) : Bool :=
  if isHelpArgument a1 != isHelpArgument a2 then isHelpArgument a2
  else !isOptionalArgument a1 && isOptionalArgument a2

/-- `l` has no inversion with respect to the comparator (the
postcondition `std::sort` establishes). -/
def sortedWrtCmp (l : List Argument) : Prop :=
  l.Pairwise (fun a b => cmpArguments b a = false)

/-- An admissible result of `std::sort(arguments, cmpArguments)`: a
comparator-sorted permutation of the input. -/
def SortOutcome (input output : List Argument) : Prop :=
  input.Perm output ∧ sortedWrtCmp output

/-! ### Concrete registries used by the claims -/

/-- Registry with one positional string `rom` (variant A). -/
def regA1 : ParserState := addArgument parserInitA .tStr ["rom"] "ROM"

/-- Registry with one positional string `rom` (variant B). -/
def regB1 : ParserState := add_argument parserInitB .tStr ["rom"] "ROM"

/-- Default-initialised caller storage for `regA1`/`regB1`. -/
def storeRom : List Value := [.vBool false, .vStr ""]

/-- Registry whose registration mixed the positional and optional name
conventions (a setup error), variant A. -/
def regAmix : ParserState := addArgument parserInitA .tStr ["rom", "-r"] "ROM"

/-- Same mixed-convention registry, variant B. -/
def regBmix : ParserState := add_argument parserInitB .tStr ["rom", "-r"] "ROM"

/-- Registry with one integer option `--scaling`/`-z` (variant A). -/
def regZA : ParserState := addArgument parserInitA .tInt ["--scaling", "-z"] "Scaling factor"

/-- Default-initialised caller storage for `regZA`. -/
def storeZ : List Value := [.vBool false, .vInt 0]

/-- Variant A registry in which two different arguments register the
same optional alias `-x`. -/
def regDupA : ParserState :=
  addArgument (addArgument parserInitA .tBool ["--verbose", "-x"] "") .tStr ["-x"] ""

/-- Variant B registry with the same `-x` alias collision. -/
def regDupB : ParserState :=
  add_argument (add_argument parserInitB .tBool ["--verbose", "-x"] "") .tStr ["-x"] ""

/-! ## Claims C1 and C5: concrete parse runs -/

/-- C1, counterexample.  Against a registry with exactly one required
positional, `parse(["--unknown"], 1)` does **not** fail: the dispatch
loop finds no alias match, sees an unconsumed positional slot, and
hands the token to the positional's binder, which stores
`"--unknown"` into the bound variable; the call then succeeds with no
error in both variants — contradicting the claimed failure, the
claimed `unknown argument` message, and the claimed untouched bound
variable. -/
theorem unknown_token_bound_to_positional_counterexample :
    parseA regA1 ["prog", "--unknown"] 1 storeRom =
      { success := true, errOut := [], helpPrinted := false,
        store := [.vBool false, .vStr "--unknown"], consumed := 1 } ∧
    parseB regB1 ["prog", "--unknown"] 1 storeRom =
      { success := true, errOut := [], helpPrinted := false,
        store := [.vBool false, .vStr "--unknown"], consumed := 1 } := by
  constructor <;> rfl

/-- C1, amended.  With one unfilled required positional,
`parse(["--unknown"], 1)` binds `--unknown` to the positional and
succeeds with no error; the `unknown argument '--unknown'` failure
(with every bound variable left at its default) occurs exactly when no
unconsumed positional remains, e.g. against a registry with no
positional argument. -/
theorem unknown_token_dispatch :
    parseA regA1 ["prog", "--unknown"] 1 storeRom =
      { success := true, errOut := [], helpPrinted := false,
        store := [.vBool false, .vStr "--unknown"], consumed := 1 } ∧
    parseA parserInitA ["prog", "--unknown"] 1 [.vBool false] =
      { success := false, errOut := ["ERROR: unknown argument " ++ sq ++ "--unknown" ++ sq],
        helpPrinted := false, store := [.vBool false], consumed := 0 } ∧
    parseB parserInitB ["prog", "--unknown"] 1 [.vBool false] =
      { success := false, errOut := ["ERROR: unknown argument " ++ sq ++ "--unknown" ++ sq],
        helpPrinted := false, store := [.vBool false], consumed := 0 } := by
  refine ⟨rfl, rfl, rfl⟩

/-- C5, counterexample.  In the camelCase variant, `parse([], 1)` (no
token after the skip) hits the "print the help if no argument is
given" policy: it returns failure but renders the help text and emits
**no** error line, so the error text does not contain a
missing-required-argument message. -/
theorem empty_input_prints_help_counterexample :
    parseA regA1 ["prog"] 1 storeRom =
      { success := false, errOut := [], helpPrinted := true,
        store := storeRom, consumed := 0 } := by
  rfl

/-- C5, amended.  `parse([], 1)` with one required positional returns
failure in both variants; the variant with the empty-input help policy
renders the help text and produces no error line, while the other
variant reports `missing required argument 'rom'`, naming the
positional. -/
theorem empty_input_outcome :
    parseA regA1 ["prog"] 1 storeRom =
      { success := false, errOut := [], helpPrinted := true,
        store := storeRom, consumed := 0 } ∧
    parseB regB1 ["prog"] 1 storeRom =
      { success := false,
        errOut := ["ERROR: missing required argument " ++ sq ++ "rom" ++ sq],
        helpPrinted := false, store := storeRom, consumed := 0 } := by
  constructor <;> rfl

/-! ## Claim C3: setup errors make every parse call fail up front -/

/-- C3.  If any setup error was recorded during registration, every
parse call (in either variant) prints all accumulated setup errors as
`ERROR: ` lines, returns failure, consumes no token, and leaves every
bound variable untouched. -/
theorem setup_errors_block_parse (p : ParserState) (argv : List String) (fromIdx : Nat)
    (store : List Value) (h : p.setupErrors ≠ []) :
    parseA p argv fromIdx store =
      { success := false, errOut := p.setupErrors.map (fun e => "ERROR: " ++ e),
        helpPrinted := false, store := store, consumed := 0 } ∧
    parseB p argv fromIdx store =
      { success := false, errOut := p.setupErrors.map (fun e => "ERROR: " ++ e),
        helpPrinted := false, store := store, consumed := 0 } := by
  have hne : p.setupErrors.isEmpty = false := by
    cases hp : p.setupErrors with
    | nil => exact absurd hp h
    | cons a l => rfl
  constructor
  · unfold parseA
    rw [if_neg (by simp [hne])]
  · unfold parseB
    rw [if_neg (by simp [hne])]

/-- Witness for C3 at the mixed-convention registries. -/
theorem setup_errors_block_parse_witness :
    regAmix.setupErrors ≠ [] ∧ regBmix.setupErrors ≠ [] ∧
    parseA regAmix ["prog", "x"] 1 storeRom =
      { success := false, errOut := regAmix.setupErrors.map (fun e => "ERROR: " ++ e),
        helpPrinted := false, store := storeRom, consumed := 0 } ∧
    parseB regBmix ["prog", "x"] 1 storeRom =
      { success := false, errOut := regBmix.setupErrors.map (fun e => "ERROR: " ++ e),
        helpPrinted := false, store := storeRom, consumed := 0 } :=
  ⟨by decide, by decide,
    (setup_errors_block_parse regAmix ["prog", "x"] 1 storeRom (by decide)).1,
    (setup_errors_block_parse regBmix ["prog", "x"] 1 storeRom (by decide)).2⟩

/-! ## Claim C9: alias collisions -/

theorem lookup_append_of_some {m l : List (String × Nat)} {k : String} {v : Nat}
    (h : m.lookup k = some v) : (m ++ l).lookup k = some v := by
  induction m with
  | nil => simp [List.lookup] at h
  | cons a m ih =>
    rw [List.cons_append]
    cases a with
    | mk a1 a2 =>
      cases hk : k == a1 with
      | true =>
        rw [List.lookup] at h ⊢
        rw [hk] at h ⊢
        exact h
      | false =>
        rw [List.lookup] at h ⊢
        rw [hk] at h ⊢
        exact ih h

theorem lookup_emplaceAlias (m : List (String × Nat)) (k k2 : String) (v i : Nat)
    (h : m.lookup k = some i) : (emplaceAlias m k2 v).lookup k = some i := by
  unfold emplaceAlias
  split
  · exact h
  · exact lookup_append_of_some h

theorem lookup_foldl_emplace (idx : Nat) (names : List String) (m : List (String × Nat))
    (k : String) (i : Nat) (h : m.lookup k = some i) :
    (names.foldl (fun m n => emplaceAlias m n idx) m).lookup k = some i := by
  induction names generalizing m with
  | nil => exact h
  | cons n ns ih => exact ih _ (lookup_emplaceAlias m k n idx i h)

theorem classifyNames_consistent (b : Bool) (names : List String)
    (h : ∀ n ∈ names, n.isEmpty = false ∧ (n.toList.headD ' ' == '-') = b) :
    ∀ acc, acc = none ∨ acc = some b → (classifyNames names acc).2 = [] := by
  induction names with
  | nil => intro acc _; cases acc <;> rfl
  | cons n ns ih =>
    intro acc hacc
    have hn := h n (List.mem_cons_self n ns)
    have hns : ∀ x ∈ ns, x.isEmpty = false ∧ (x.toList.headD ' ' == '-') = b :=
      fun x hx => h x (List.mem_cons_of_mem n hx)
    unfold classifyNames
    rw [if_neg (by rw [hn.1]; exact Bool.false_ne_true)]
    rcases hacc with rfl | rfl
    · dsimp only
      rw [hn.2]
      exact ih hns (some b) (Or.inr rfl)
    · dsimp only
      rw [hn.2, if_neg (by simp)]
      exact ih hns (some b) (Or.inr rfl)

/-- C9, amended.  When a later argument registers an alias string that
an earlier argument already owns, the alias index keeps the
**earlier** binding (`std::unordered_map::emplace` never overwrites:
first registration wins silently), and — as the claim correctly states
— no setup error is recorded for the collision, in either variant. -/
theorem alias_collision_first_registration_wins (p : ParserState) (ty : ArgType)
    (names : List String) (helpText : String) (k : String) (i : Nat)
    (hk : lookupAlias p.optionals k = some i)
    (hnames : ∀ n ∈ names, n.isEmpty = false ∧ (n.toList.headD ' ' == '-') = true) :
    lookupAlias (addArgument p ty names helpText).optionals k = some i ∧
    (addArgument p ty names helpText).setupErrors = p.setupErrors ∧
    lookupAlias (add_argument p ty names helpText).optionals k = some i ∧
    (add_argument p ty names helpText).setupErrors = p.setupErrors := by
  have hcl := classifyNames_consistent true names hnames none (Or.inl rfl)
  unfold lookupAlias at hk
  unfold addArgument add_argument lookupAlias
  refine ⟨?_, ?_, ?_, ?_⟩ <;> (dsimp only; split) <;>
    simp only [hcl, List.append_nil] <;>
    first
      | exact lookup_foldl_emplace _ names p.optionals k i hk
      | exact hk
      | rfl

/-- Witness for C9 (amended) at the `-x` collision registries. -/
theorem alias_collision_first_registration_wins_witness :
    lookupAlias regDupA.optionals "-x" = some 1 ∧
    regDupA.setupErrors = (addArgument parserInitA .tBool ["--verbose", "-x"] "").setupErrors ∧
    lookupAlias regDupB.optionals "-x" = some 1 ∧
    regDupB.setupErrors = (add_argument parserInitB .tBool ["--verbose", "-x"] "").setupErrors := by
  have hA := alias_collision_first_registration_wins
    (addArgument parserInitA .tBool ["--verbose", "-x"] "") .tStr ["-x"] "" "-x" 1
    (by decide) (by decide)
  have hB := alias_collision_first_registration_wins
    (add_argument parserInitB .tBool ["--verbose", "-x"] "") .tStr ["-x"] "" "-x" 1
    (by decide) (by decide)
  exact ⟨hA.1, hA.2.1, hB.2.2.1, hB.2.2.2⟩

/-- C9, counterexample.  Two arguments register the alias `-x` (the
second user argument has index 2); the alias index maps `-x` to the
**earlier** argument (index 1), not the later one, in both variants —
no setup error is recorded. -/
theorem alias_collision_last_wins_counterexample :
    lookupAlias regDupA.optionals "-x" = some 1 ∧ regDupA.arguments.length = 3 ∧
    regDupA.setupErrors = [] ∧
    lookupAlias regDupB.optionals "-x" = some 1 ∧ regDupB.arguments.length = 3 ∧
    regDupB.setupErrors = [] := by
  refine ⟨by decide, by decide, by decide, by decide, by decide, by decide⟩

/-! ## Claim C2: the dispatch loop stops at the first error -/

theorem stepLoop_errors_len (p : ParserState) (tokens : List String) (st : LoopState)
    (h0 : st.errors = []) : (stepLoop p tokens st).errors.length ≤ 1 := by
  unfold stepLoop
  rcases hlk : lookupAlias p.optionals (tokens.getD st.idx "") with _ | ai <;>
      simp only [hlk]
  · by_cases hp : st.positionalIndex < p.positionals.length
    · rw [dif_pos hp]
      rcases binderParse_errors p tokens (p.positionals.get ⟨st.positionalIndex, hp⟩)
          { st with positionalIndex := st.positionalIndex + 1 } with hb | ⟨e, hb⟩ <;>
        dsimp only <;> rw [hb] <;> dsimp only <;> rw [h0] <;> simp
    · rw [dif_neg hp]; dsimp only; rw [h0]; simp
  · by_cases hn : st.idx + 1 + numParams (argAt p ai).ty ≤ tokens.length
    · rw [if_pos hn]
      rcases binderParse_errors p tokens ai { st with idx := st.idx + 1 } with hb | ⟨e, hb⟩ <;>
        dsimp only <;> rw [hb] <;> dsimp only <;> rw [h0] <;> simp
    · rw [if_neg hn]; dsimp only; rw [h0]; simp

theorem runLoopFuel_errors_le (p : ParserState) (tokens : List String) (fuel : Nat) :
    ∀ st : LoopState, st.errors = [] →
      ((runLoopFuel p tokens fuel st).errors).length ≤ 1 := by
  induction fuel with
  | zero => intro st h0; unfold runLoopFuel; rw [h0]; simp
  | succ n ih =>
    intro st h0
    unfold runLoopFuel
    by_cases hc : st.idx < tokens.length ∧ st.errors = []
    · rw [if_pos hc]
      by_cases herr : (stepLoop p tokens st).errors = []
      · exact ih _ herr
      · rw [runLoopFuel_of_errors p tokens n _ herr]
        exact stepLoop_errors_len p tokens st h0
    · rw [if_neg hc]; rw [h0]; simp

/-- C2.  In every parse call the dispatch loop halts at the first
recorded parse error, so starting from an empty error list the loop
contributes at most one error (in particular never two
unknown-argument errors); and whenever the peeked token matches a
registered optional alias but fewer than the argument's declared
parameter count of tokens remain after consuming it, the loop's result
is exactly: the alias token consumed, the single error
`missing parameter for argument '<token>'`, and everything else
untouched. -/
theorem dispatch_loop_stops_at_first_error (p : ParserState) (tokens : List String)
    (st : LoopState) (h0 : st.errors = []) :
    ((runLoop p tokens st).errors).length ≤ 1 ∧
    (∀ ai, st.idx < tokens.length →
      lookupAlias p.optionals (tokens.getD st.idx "") = some ai →
      tokens.length < st.idx + 1 + numParams (argAt p ai).ty →
      runLoop p tokens st =
        { st with idx := st.idx + 1,
                  errors := ["missing parameter for argument " ++ sq ++
                    tokens.getD st.idx "" ++ sq] }) := by
  constructor
  · exact runLoopFuel_errors_le p tokens _ st h0
  · intro ai h1 hlk hn
    have hstep : stepLoop p tokens st =
        { st with idx := st.idx + 1,
                  errors := ["missing parameter for argument " ++ sq ++
                    tokens.getD st.idx "" ++ sq] } := by
      unfold stepLoop
      simp only [hlk]
      rw [if_neg]
      · rw [h0]; rfl
      · dsimp only; omega
    unfold runLoop runLoopFuel
    rw [if_pos ⟨h1, h0⟩, hstep, runLoopFuel_of_errors]
    simp

/-- Witness for C2 at `["-z"]` against the `--scaling`/`-z` integer
option: the alias is consumed, no parameter remains, and the loop
stops with the single missing-parameter error. -/
theorem dispatch_loop_stops_at_first_error_witness :
    ((runLoop regZA ["-z"] ⟨0, [], storeZ, 0, []⟩).errors).length ≤ 1 ∧
    runLoop regZA ["-z"] ⟨0, [], storeZ, 0, []⟩ =
      { idx := 1, errors := ["missing parameter for argument " ++ sq ++ "-z" ++ sq],
        store := storeZ, positionalIndex := 0, parsedArgs := [] } := by
  have h := dispatch_loop_stops_at_first_error regZA ["-z"] ⟨0, [], storeZ, 0, []⟩ rfl
  exact ⟨h.1, (h.2 1 (by decide) (by decide) (by decide)).trans (by decide)⟩

/-! ## Claim C4: the help flag -/

/-- C4.  If the help flag was set during the dispatch loop (`-h` or
`--help` consumed anywhere in the input), `parse` clears the flag,
renders the help text, and returns failure — even when every other
argument parsed validly — and produces no `ERROR:` line (the
required-argument sweep is skipped), in both variants. -/
theorem help_flag_forces_help_and_failure (p : ParserState) (argv : List String)
    (fromIdx : Nat) (store : List Value)
    (hsetup : p.setupErrors = [])
    (hargs : (argv.drop fromIdx).isEmpty = false)
    (hhelp : asBool ((runLoop p (argv.drop fromIdx) ⟨0, [], store, 0, []⟩).store.getD 0
        (.vBool false)) = true) :
    parseA p argv fromIdx store =
      { success := false, errOut := [], helpPrinted := true,
        store := (runLoop p (argv.drop fromIdx) ⟨0, [], store, 0, []⟩).store.set 0 (.vBool false),
        consumed := (runLoop p (argv.drop fromIdx) ⟨0, [], store, 0, []⟩).idx } ∧
    parseB p argv fromIdx store =
      { success := false, errOut := [], helpPrinted := true,
        store := (runLoop p (argv.drop fromIdx) ⟨0, [], store, 0, []⟩).store.set 0 (.vBool false),
        consumed := (runLoop p (argv.drop fromIdx) ⟨0, [], store, 0, []⟩).idx } := by
  have hse : p.setupErrors.isEmpty = true := by rw [hsetup]; rfl
  constructor
  · unfold parseA
    rw [if_pos hse]
    dsimp only
    rw [if_neg (by rw [hargs]; exact Bool.false_ne_true)]
    rw [if_pos hhelp]
  · unfold parseB
    rw [if_pos hse]
    dsimp only
    rw [if_pos hhelp]

/-- Witness for C4 at `["-h"]` against the one-positional registries:
help is rendered, the call fails, the flag is cleared, no error line
appears even though the required positional was never matched. -/
theorem help_flag_forces_help_and_failure_witness :
    parseA regA1 ["prog", "-h"] 1 storeRom =
      { success := false, errOut := [], helpPrinted := true,
        store := [.vBool false, .vStr ""], consumed := 1 } ∧
    parseB regB1 ["prog", "-h"] 1 storeRom =
      { success := false, errOut := [], helpPrinted := true,
        store := [.vBool false, .vStr ""], consumed := 1 } := by
  have hA := (help_flag_forces_help_and_failure regA1 ["prog", "-h"] 1 storeRom
    (by decide) (by decide) (by decide)).1
  have hB := (help_flag_forces_help_and_failure regB1 ["prog", "-h"] 1 storeRom
    (by decide) (by decide) (by decide)).2
  exact ⟨hA.trans (by decide), hB.trans (by decide)⟩

/-! ## Claims C6 and C10: the integer binder -/

theorem strtol_consumed_zero (s : List Char) :
    (strtolModel s).consumed = 0 → (strtolModel s).value = 0 := by
  unfold strtolModel
  dsimp only
  split
  · intro _; rfl
  · rename_i hd
    split
    · intro h; dsimp only at h; omega
    · split
      · intro h; dsimp only at h; omega
      · intro h; dsimp only at h; omega

/-- C6.  The integer binder consumes exactly one token (the cursor
advances past it unconditionally — no retry), converts it with base-10
`strtol`, and records `failed to parse '<token>' as number` exactly
when the conversion failed (no character consumed, or overflow). -/
theorem integer_binder_consumes_and_reports (p : ParserState) (tokens : List String)
    (ai : Nat) (st : LoopState) (hty : (argAt p ai).ty = .tInt) :
    (binderParse p tokens ai st).idx = st.idx + 1 ∧
    (((strtolModel (tokens.getD st.idx "").toList).overflow ||
        ((strtolModel (tokens.getD st.idx "").toList).consumed == 0)) = true →
      (binderParse p tokens ai st).errors =
        st.errors ++ ["failed to parse " ++ sq ++ tokens.getD st.idx "" ++ sq ++ " as number"]) ∧
    (((strtolModel (tokens.getD st.idx "").toList).overflow ||
        ((strtolModel (tokens.getD st.idx "").toList).consumed == 0)) = false →
      (binderParse p tokens ai st).errors = st.errors) := by
  unfold binderParse
  rw [hty]
  dsimp only
  by_cases hcond : ((strtolModel (tokens.getD st.idx "").toList).overflow ||
      ((strtolModel (tokens.getD st.idx "").toList).consumed == 0)) = true
  · rw [if_pos hcond]
    exact ⟨rfl, fun _ => rfl, fun hc => absurd hcond (by rw [hc]; exact Bool.false_ne_true)⟩
  · rw [if_neg hcond]
    exact ⟨rfl, fun hc => absurd hc hcond, fun _ => rfl⟩

/-- Witness for C6 at the unparsable token `"abc"`. -/
theorem integer_binder_consumes_and_reports_witness :
    (binderParse regZA ["abc"] 1 ⟨0, [], storeZ, 0, []⟩).idx = 1 ∧
    (binderParse regZA ["abc"] 1 ⟨0, [], storeZ, 0, []⟩).errors =
      ["failed to parse " ++ sq ++ "abc" ++ sq ++ " as number"] := by
  have h := integer_binder_consumes_and_reports regZA ["abc"] 1 ⟨0, [], storeZ, 0, []⟩
    (by decide)
  exact ⟨h.1, (h.2.1 (by decide)).trans (by decide)⟩

/-- C10.  When numeric conversion of the consumed token fails, the
bound variable is nevertheless overwritten with the conversion
routine's result (0 when no character was consumed) and the error is
recorded: a failing parse call is not atomic with respect to the bound
variables it touched. -/
theorem integer_binder_overwrites_on_failure (p : ParserState) (tokens : List String)
    (ai : Nat) (st : LoopState) (hty : (argAt p ai).ty = .tInt)
    (hfail : ((strtolModel (tokens.getD st.idx "").toList).overflow ||
        ((strtolModel (tokens.getD st.idx "").toList).consumed == 0)) = true) :
    (binderParse p tokens ai st).store =
      st.store.set ai (.vInt (strtolModel (tokens.getD st.idx "").toList).value) ∧
    (binderParse p tokens ai st).errors =
      st.errors ++ ["failed to parse " ++ sq ++ tokens.getD st.idx "" ++ sq ++ " as number"] ∧
    ((strtolModel (tokens.getD st.idx "").toList).consumed = 0 →
      (strtolModel (tokens.getD st.idx "").toList).value = 0) := by
  unfold binderParse
  rw [hty]
  dsimp only
  rw [if_pos hfail]
  exact ⟨rfl, rfl, strtol_consumed_zero _⟩

/-- Witness for C10: parsing `"abc"` fails, yet the bound variable is
overwritten with 0. -/
theorem integer_binder_overwrites_on_failure_witness :
    (binderParse regZA ["abc"] 1 ⟨0, [], storeZ, 0, []⟩).store =
      [.vBool false, .vInt 0] ∧
    (binderParse regZA ["abc"] 1 ⟨0, [], storeZ, 0, []⟩).errors =
      ["failed to parse " ++ sq ++ "abc" ++ sq ++ " as number"] := by
  have h := integer_binder_overwrites_on_failure regZA ["abc"] 1 ⟨0, [], storeZ, 0, []⟩
    (by decide) (by decide)
  exact ⟨h.1.trans (by decide), h.2.1.trans (by decide)⟩

/-! ## Claim C8: the help formatter's descriptor order -/

theorem isHelp_isOptional (a : Argument) (h : isHelpArgument a = true) :
    isOptionalArgument a = true := by
  unfold isHelpArgument at h
  unfold isOptionalArgument
  rw [eq_of_beq h]
  rfl

/-- The help descriptor (what `Parser::Parser()` registers). -/
def helpDescr : Argument := ⟨["--help", "-h"], .tBool, false, "Display this help message and quit"⟩

/-- The `rom` positional descriptor. -/
def romDescr : Argument := ⟨["rom"], .tStr, false, "ROM"⟩

/-- The `--serial` flag descriptor. -/
def serialDescr : Argument := ⟨["--serial", "-s"], .tBool, false, "Display serial console"⟩

/-- The `--scaling` option descriptor. -/
def scalingDescr : Argument := ⟨["--scaling", "-z"], .tInt, false, "Scaling factor"⟩

/-- C8, amended.  Every admissible outcome of `printHelp`'s
`std::sort` call (a comparator-sorted permutation of the descriptor
list) places all positional arguments before all optional arguments
and every help descriptor after every non-help one; but because
`std::sort` — not `std::stable_sort` — is used, the relative
registration order *within* each group is not guaranteed (see the
counterexample). -/
theorem help_sort_group_order (args out : List Argument) (h : SortOutcome args out) :
    out.Pairwise (fun a b =>
      (isOptionalArgument a = true → isOptionalArgument b = true) ∧
      (isHelpArgument a = true → isHelpArgument b = true)) := by
  refine h.2.imp ?_
  intro a b hc
  constructor
  · intro hoa
    by_contra hob
    rw [Bool.not_eq_true] at hob
    have hhb : isHelpArgument b = false := by
      cases hhb : isHelpArgument b with
      | false => rfl
      | true => rw [isHelp_isOptional b hhb] at hob; exact absurd hob (by simp)
    unfold cmpArguments at hc
    cases hha : isHelpArgument a with
    | true => rw [hha, hhb] at hc; simp at hc
    | false => rw [hha, hhb, hoa, hob] at hc; simp at hc
  · intro hha
    by_contra hhb
    rw [Bool.not_eq_true] at hhb
    unfold cmpArguments at hc
    rw [hha, hhb] at hc
    simp at hc

/-- Witness for C8 (amended) at a `rom` + `--serial` registry: the
admissible outcome `[rom, --serial, --help]` satisfies the
positionals-first / help-last ordering. -/
theorem help_sort_group_order_witness :
    List.Pairwise (fun a b =>
      (isOptionalArgument a = true → isOptionalArgument b = true) ∧
      (isHelpArgument a = true → isHelpArgument b = true))
      [romDescr, serialDescr, helpDescr] :=
  help_sort_group_order [helpDescr, romDescr, serialDescr] [romDescr, serialDescr, helpDescr]
    ⟨by decide, by unfold sortedWrtCmp; decide⟩

/-- C8, counterexample to stability.  For the registry that registers
`--serial` and then `--scaling`, the list `[--scaling, --serial,
--help]` is a comparator-sorted permutation of the descriptor list —
hence an admissible result of the `std::sort` call — yet the two
non-help optionals appear in the reverse of their registration order,
so the claimed stability ("within each group the original registration
order is preserved") is not guaranteed by the code. -/
theorem help_sort_not_stable_counterexample :
    SortOutcome [helpDescr, serialDescr, scalingDescr]
      [scalingDescr, serialDescr, helpDescr] ∧
    [helpDescr, serialDescr, scalingDescr].getD 1 default = serialDescr ∧
    [helpDescr, serialDescr, scalingDescr].getD 2 default = scalingDescr ∧
    [scalingDescr, serialDescr, helpDescr].getD 0 default = scalingDescr ∧
    [scalingDescr, serialDescr, helpDescr].getD 1 default = serialDescr :=
  ⟨⟨by decide, by unfold sortedWrtCmp; decide⟩, rfl, rfl, rfl, rfl⟩

/-! ## Claim C7: the word-wrap helper

`wrap(s, colWidth, maxWidth)` walks the string with
`find_first_of`/`find_first_not_of` over the `WHITESPACES` set
(the same character set as `cIsSpace`), greedily packing tokens —
each taken together with its trailing whitespace run — into rows.
Strings are modelled as `List Char`; `std::string::npos` as `none`. -/

/-- Helper for the `find_first_of` family: index of the first element
satisfying `p`. -/
def findAux (p : Char → Bool) : List Char → Option Nat
  | [] => none
  | c :: cs => if p c then some 0 else (findAux p cs).map (· + 1)

/-- `s.find_first_of(WHITESPACES, i)`. -/
def findFirstOf (s : List Char) (i : Nat) : Option Nat :=
  (findAux cIsSpace (s.drop i)).map (· + i)

/-- `s.find_first_not_of(WHITESPACES, i)`. -/
def findFirstNotOf (s : List Char) (i : Nat) : Option Nat :=
  (findAux (fun c => !cIsSpace c) (s.drop i)).map (· + i)

theorem findAux_some_lt {p : Char → Bool} {l : List Char} {j : Nat}
    (h : findAux p l = some j) : j < l.length := by
  induction l generalizing j with
  | nil => exact absurd h (by simp [findAux])
  | cons c cs ih =>
    rw [findAux] at h
    split at h
    · cases h; simp
    · rcases hx : findAux p cs with _ | j2
      · rw [hx] at h; exact absurd h (by simp)
      · rw [hx] at h
        simp only [Option.map_some'] at h
        cases h
        have := ih hx
        simp
        omega

theorem findAux_none_iff {p : Char → Bool} {l : List Char} :
    findAux p l = none ↔ ∀ x ∈ l, p x = false := by
  induction l with
  | nil => simp [findAux]
  | cons c cs ih =>
    rw [findAux]
    constructor
    · intro h
      split at h
      · exact absurd h (by simp)
      · rename_i hc
        intro x hx
        rcases List.mem_cons.1 hx with rfl | hx2
        · simpa using hc
        · rcases hy : findAux p cs with _ | j
          · exact (ih.1 hy) x hx2
          · rw [hy] at h; exact absurd h (by simp)
    · intro h
      rw [if_neg (by rw [h c (by simp)]; exact Bool.false_ne_true)]
      rw [ih.2 (fun x hx => h x (List.mem_cons_of_mem c hx))]
      rfl

theorem findAux_some_takeWhile {p : Char → Bool} {l : List Char} {j : Nat}
    (h : findAux p l = some j) : j = (l.takeWhile (fun c => !p c)).length := by
  induction l generalizing j with
  | nil => exact absurd h (by simp [findAux])
  | cons c cs ih =>
    rw [findAux] at h
    rw [List.takeWhile_cons]
    split at h
    · rename_i hc
      cases h
      rw [if_neg (by rw [hc]; simp)]
      rfl
    · rename_i hc
      rcases hx : findAux p cs with _ | j2
      · rw [hx] at h; exact absurd h (by simp)
      · rw [hx] at h
        simp only [Option.map_some'] at h
        cases h
        rw [if_pos (show (!p c) = true by
          cases hpc : p c with
          | false => rfl
          | true => exact absurd hpc hc)]
        rw [List.length_cons, ih hx]

theorem findAux_none_takeWhile {p : Char → Bool} {l : List Char}
    (h : findAux p l = none) : l.takeWhile (fun c => !p c) = l := by
  rw [List.takeWhile_eq_self_iff]
  intro x hx
  rw [findAux_none_iff.1 h x hx]
  rfl

theorem findAux_some_char {p : Char → Bool} {l : List Char} {j : Nat}
    (h : findAux p l = some j) : p (l.getD j ' ') = true := by
  induction l generalizing j with
  | nil => exact absurd h (by simp [findAux])
  | cons c cs ih =>
    rw [findAux] at h
    split at h
    · cases h; assumption
    · rcases hx : findAux p cs with _ | j2
      · rw [hx] at h; exact absurd h (by simp)
      · rw [hx] at h
        simp only [Option.map_some'] at h
        cases h
        exact ih hx

theorem findFirstOf_bounds {s : List Char} {i j : Nat} (h : findFirstOf s i = some j) :
    i ≤ j ∧ j < s.length := by
  unfold findFirstOf at h
  rcases hx : findAux cIsSpace (s.drop i) with _ | j2
  · rw [hx] at h; exact absurd h (by simp)
  · rw [hx] at h
    simp only [Option.map_some'] at h
    cases h
    have := findAux_some_lt hx
    rw [List.length_drop] at this
    omega

theorem findFirstNotOf_bounds {s : List Char} {i j : Nat}
    (h : findFirstNotOf s i = some j) : i ≤ j ∧ j < s.length := by
  unfold findFirstNotOf at h
  rcases hx : findAux (fun c => !cIsSpace c) (s.drop i) with _ | j2
  · rw [hx] at h; exact absurd h (by simp)
  · rw [hx] at h
    simp only [Option.map_some'] at h
    cases h
    have := findAux_some_lt hx
    rw [List.length_drop] at this
    omega

/-- The loop body's `end` local: position of the next token (the
first non-whitespace after the first whitespace at or after `b`), or
`npos`. -/
def wrapEnd (s : List Char) (b : Nat) : Option Nat :=
  match findFirstOf s b with
  | some fs => findFirstNotOf s (fs + 1)
  | none => none

/-- The loop body's `token` local: `s.substr(begin, end - begin)` —
the token *including* its trailing whitespace run. -/
def wrapToken (s : List Char) (b : Nat) : List Char :=
  (s.drop b).take ((wrapEnd s b).getD s.length - b)

/-- The loop body's `tokenSize` local: the token's length up to (not
including) the first whitespace. -/
def wrapTokenSize (s : List Char) (b : Nat) : Nat :=
  match findFirstOf s b with
  | some fs => fs - b
  | none => s.length - b

/-- One iteration of the greedy packing: append the token to the
current row if `row.size() + tokenSize < maxWidth`, otherwise flush
the row (with a newline) and start a fresh row indented to
`colWidth`. -/
def wrapStep (colWidth maxWidth : Nat) (s : List Char) (b : Nat) (out row : List Char) :
    List Char × List Char :=
  if row.length + wrapTokenSize s b < maxWidth then (out, row ++ wrapToken s b)
  else (out ++ row ++ ['\n'], List.replicate colWidth ' ' ++ wrapToken s b)

/-- The do-while loop of `wrap`.  `b` is `begin` (always the start of
a token, i.e. a non-whitespace position); the loop continues while
`end != npos`, and finally appends the pending row. -/
def wrapLoop (s : List Char) (colWidth maxWidth : Nat) (b : Nat) (out row : List Char) :
    List Char :=
  match h : wrapEnd s b with
  | some e =>
    wrapLoop s colWidth maxWidth e (wrapStep colWidth maxWidth s b out row).1
      (wrapStep colWidth maxWidth s b out row).2
  | none => (wrapStep colWidth maxWidth s b out row).1 ++ (wrapStep colWidth maxWidth s b out row).2
termination_by s.length - b
decreasing_by
  unfold wrapEnd at h
  rcases hfs : findFirstOf s b with _ | fs
  · rw [hfs] at h; simp at h
  · rw [hfs] at h
    have h1 := (findFirstOf_bounds hfs).1
    have h2 := findFirstNotOf_bounds (show findFirstNotOf s (fs + 1) = some e from h)
    omega

/-- C++ `wrap(s, colWidth, maxWidth)`: emit the leading whitespace
verbatim, then run the token loop; an all-whitespace (or empty) input
returns the empty string. -/
def wrap (s : List Char) (colWidth maxWidth : Nat) : List Char :=
  match findFirstNotOf s 0 with
  | none => []
  | some b => wrapLoop s colWidth maxWidth b (s.take b) []

theorem length_dropWhile_le (p : Char → Bool) (l : List Char) :
    (l.dropWhile p).length ≤ l.length := by
  induction l with
  | nil => simp
  | cons d ds ih =>
    rw [List.dropWhile_cons]
    split
    · rw [List.length_cons]; omega
    · exact Nat.le_refl _

/-- The whitespace-delimited token sequence of a string (specification
side, for the re-joining property). -/
def tokenize (l : List Char) : List (List Char) :=
  match l with
  | [] => []
  | c :: cs =>
    if cIsSpace c then tokenize cs
    else ((c :: cs).takeWhile (fun x => !cIsSpace x)) ::
      tokenize ((c :: cs).dropWhile (fun x => !cIsSpace x))
termination_by l.length
decreasing_by
  · simp
  · rename_i hc
    rw [List.dropWhile_cons, if_pos (by simp [Bool.not_eq_true] at hc ⊢; exact hc)]
    have := length_dropWhile_le (fun x => !cIsSpace x) cs
    simp
    omega

/-- Split a string into its displayed lines (at `'\n'`). -/
def linesOf : List Char → List (List Char)
  | [] => [[]]
  | c :: cs =>
    if c = '\n' then [] :: linesOf cs
    else
      match linesOf cs with
      | [] => [[c]]
      | l :: ls => (c :: l) :: ls

/-- No two adjacent whitespace characters (tokens are separated by
single whitespace characters, and leading/trailing whitespace is a
single character). -/
def noAdjWS : List Char → Bool
  | [] => true
  | [_] => true
  | a :: b :: rest => !(cIsSpace a && cIsSpace b) && noAdjWS (b :: rest)

/-- Every whitespace character in the string is a plain space. -/
def spaceOnlyWS (s : List Char) : Bool :=
  s.all (fun c => !cIsSpace c || (c == ' '))

/-- Length of the non-whitespace run starting at position `i`. -/
def runLen (s : List Char) (i : Nat) : Nat :=
  ((s.drop i).takeWhile (fun c => !cIsSpace c)).length

/-- A string's last character, if any, is whitespace (vacuously true
for the empty string). -/
def endsWS (a : List Char) : Bool :=
  a.getLast?.all cIsSpace

/-! ### Unfolding and characterization lemmas for the wrap loop -/

theorem wrapLoop_eq_some {s : List Char} {cW W b e : Nat} (out row : List Char)
    (h : wrapEnd s b = some e) :
    wrapLoop s cW W b out row =
      wrapLoop s cW W e (wrapStep cW W s b out row).1 (wrapStep cW W s b out row).2 := by
  rw [wrapLoop]
  split
  · rename_i e2 heq
    have : e2 = e := by rw [heq] at h; exact Option.some_inj.1 h
    rw [this]
  · rename_i heq
    rw [heq] at h
    exact absurd h (by simp)

theorem wrapLoop_eq_none {s : List Char} {cW W b : Nat} (out row : List Char)
    (h : wrapEnd s b = none) :
    wrapLoop s cW W b out row =
      (wrapStep cW W s b out row).1 ++ (wrapStep cW W s b out row).2 := by
  rw [wrapLoop]
  split
  · rename_i e2 heq
    rw [heq] at h
    exact absurd h (by simp)
  · rfl

theorem dropWhile_eq_drop_length (p : Char → Bool) (l : List Char) :
    l.dropWhile p = l.drop (l.takeWhile p).length := by
  induction l with
  | nil => rfl
  | cons c cs ih =>
    by_cases hpc : p c
    · simp [List.dropWhile_cons, List.takeWhile_cons, hpc, ih]
    · simp [List.dropWhile_cons, List.takeWhile_cons, hpc]

theorem getD_drop (s : List Char) (i k : Nat) :
    (s.drop i).getD k ' ' = s.getD (i + k) ' ' := by
  rw [List.getD_eq_getElem?_getD, List.getD_eq_getElem?_getD, List.getElem?_drop]

theorem getD_eq_getElem (l : List Char) (n : Nat) (h : n < l.length) :
    l.getD n ' ' = l[n] := by
  rw [List.getD_eq_getElem?_getD, List.getElem?_eq_getElem h]
  rfl

theorem drop_cons_getD (s : List Char) (n : Nat) (h : n < s.length) :
    s.drop n = s.getD n ' ' :: s.drop (n + 1) := by
  rw [List.drop_eq_getElem_cons h, getD_eq_getElem s n h]

theorem mem_of_getLast?_eq {l : List Char} {a : Char} (h : l.getLast? = some a) : a ∈ l := by
  obtain ⟨hne, rfl⟩ := List.mem_getLast?_eq_getLast (show a ∈ l.getLast? by rw [h]; rfl)
  exact List.getLast_mem hne

theorem not_not_cIsSpace : (fun c => !(!cIsSpace c)) = cIsSpace :=
  funext fun c => Bool.not_not _

theorem findFirstOf_char {s : List Char} {i fs : Nat} (h : findFirstOf s i = some fs) :
    cIsSpace (s.getD fs ' ') = true := by
  unfold findFirstOf at h
  rcases hx : findAux cIsSpace (s.drop i) with _ | j2
  · rw [hx] at h; simp at h
  · rw [hx] at h
    simp only [Option.map_some'] at h
    cases h
    have := findAux_some_char hx
    rw [getD_drop, Nat.add_comm i j2] at this
    exact this

theorem findFirstNotOf_char {s : List Char} {i j : Nat} (h : findFirstNotOf s i = some j) :
    cIsSpace (s.getD j ' ') = false := by
  unfold findFirstNotOf at h
  rcases hx : findAux (fun c => !cIsSpace c) (s.drop i) with _ | j2
  · rw [hx] at h; simp at h
  · rw [hx] at h
    simp only [Option.map_some'] at h
    cases h
    have := findAux_some_char hx
    rw [getD_drop, Nat.add_comm i j2] at this
    simpa using this

theorem findFirstOf_some_runLen {s : List Char} {b fs : Nat}
    (h : findFirstOf s b = some fs) : fs = b + runLen s b := by
  unfold findFirstOf at h
  rcases hx : findAux cIsSpace (s.drop b) with _ | j2
  · rw [hx] at h; simp at h
  · rw [hx] at h
    simp only [Option.map_some'] at h
    cases h
    rw [findAux_some_takeWhile hx]
    unfold runLen
    omega

theorem findFirstOf_none_view {s : List Char} {b : Nat} (h : findFirstOf s b = none) :
    (∀ x ∈ s.drop b, cIsSpace x = false) ∧
    (s.drop b).takeWhile (fun c => !cIsSpace c) = s.drop b ∧
    runLen s b = s.length - b := by
  unfold findFirstOf at h
  have hx : findAux cIsSpace (s.drop b) = none := by
    rcases hy : findAux cIsSpace (s.drop b) with _ | j2
    · rfl
    · rw [hy] at h; simp at h
  have hall := findAux_none_iff.1 hx
  have htw : (s.drop b).takeWhile (fun c => !cIsSpace c) = s.drop b := by
    rw [List.takeWhile_eq_self_iff]
    intro x hmem
    rw [hall x hmem]
    rfl
  exact ⟨hall, htw, by unfold runLen; rw [htw, List.length_drop]⟩

theorem findFirstNotOf_some_eq {s : List Char} {i j : Nat}
    (h : findFirstNotOf s i = some j) :
    j = i + ((s.drop i).takeWhile cIsSpace).length := by
  unfold findFirstNotOf at h
  rcases hx : findAux (fun c => !cIsSpace c) (s.drop i) with _ | j2
  · rw [hx] at h; simp at h
  · rw [hx] at h
    simp only [Option.map_some'] at h
    cases h
    have := findAux_some_takeWhile hx
    rw [not_not_cIsSpace] at this
    omega

theorem findFirstNotOf_none_all {s : List Char} {i : Nat} (h : findFirstNotOf s i = none) :
    ∀ x ∈ s.drop i, cIsSpace x = true := by
  unfold findFirstNotOf at h
  have hx : findAux (fun c => !cIsSpace c) (s.drop i) = none := by
    rcases hy : findAux (fun c => !cIsSpace c) (s.drop i) with _ | j2
    · rfl
    · rw [hy] at h; simp at h
  intro x hmem
  have := findAux_none_iff.1 hx x hmem
  simpa using this

theorem runLen_pos {s : List Char} {b : Nat} (hb : b < s.length)
    (hnb : cIsSpace (s.getD b ' ') = false) : 0 < runLen s b := by
  unfold runLen
  rw [drop_cons_getD s b hb, List.takeWhile_cons, if_pos (by rw [hnb]; rfl)]
  simp

theorem runLen_le {s : List Char} {b : Nat} : runLen s b ≤ s.length - b := by
  unfold runLen
  have h1 := (List.takeWhile_prefix (l := s.drop b) (fun c => !cIsSpace c)).length_le
  rw [List.length_drop] at h1
  exact h1

/-- Splitting the remaining input at the end of the current
non-whitespace run: `drop b = run ++ drop fs`. -/
theorem drop_split_at_run {s : List Char} {b fs : Nat} (h : findFirstOf s b = some fs) :
    s.drop b = (s.drop b).takeWhile (fun c => !cIsSpace c) ++ s.drop fs := by
  have h1 := List.takeWhile_append_dropWhile (fun c => !cIsSpace c) (s.drop b)
  have h2 : (s.drop b).dropWhile (fun c => !cIsSpace c) = s.drop fs := by
    rw [dropWhile_eq_drop_length, List.drop_drop]
    have h3 := findFirstOf_some_runLen h
    unfold runLen at h3
    rw [← h3]
  rw [← h2]
  exact h1.symm

/-- Splitting at the end of a whitespace run:
`drop i = wsrun ++ drop j` for `j = find_first_not_of(i)`. -/
theorem drop_split_at_ws {s : List Char} {i j : Nat} (h : findFirstNotOf s i = some j) :
    s.drop i = (s.drop i).takeWhile cIsSpace ++ s.drop j ∧
    j = i + ((s.drop i).takeWhile cIsSpace).length := by
  have hj := findFirstNotOf_some_eq h
  have h1 := List.takeWhile_append_dropWhile cIsSpace (s.drop i)
  have h2 : (s.drop i).dropWhile cIsSpace = s.drop j := by
    rw [dropWhile_eq_drop_length, List.drop_drop]
    rw [← hj]
  exact ⟨by rw [← h2]; exact h1.symm, hj⟩

/-! ### Lemmas about `tokenize` -/

theorem tokenize_cons_ws {c : Char} {cs : List Char} (hc : cIsSpace c = true) :
    tokenize (c :: cs) = tokenize cs := by
  conv_lhs => rw [tokenize]
  rw [if_pos hc]

theorem tokenize_cons_not_ws {c : Char} {cs : List Char} (hc : cIsSpace c = false) :
    tokenize (c :: cs) =
      ((c :: cs).takeWhile (fun x => !cIsSpace x)) ::
        tokenize ((c :: cs).dropWhile (fun x => !cIsSpace x)) := by
  conv_lhs => rw [tokenize]
  rw [if_neg (by rw [hc]; exact Bool.false_ne_true)]

theorem tokenize_ws_pre {a : List Char} (b : List Char)
    (h : ∀ x ∈ a, cIsSpace x = true) : tokenize (a ++ b) = tokenize b := by
  induction a with
  | nil => rfl
  | cons c a2 ih =>
    rw [List.cons_append, tokenize_cons_ws (h c (List.mem_cons_self c a2))]
    exact ih (fun x hx => h x (List.mem_cons_of_mem c hx))

theorem tokenize_nil : tokenize [] = [] := by
  rw [tokenize]

theorem tokenize_all_ws {a : List Char} (h : ∀ x ∈ a, cIsSpace x = true) :
    tokenize a = [] := by
  have := tokenize_ws_pre (a := a) [] h
  rw [List.append_nil] at this
  rw [this, tokenize_nil]

theorem takeWhile_append_all {p : Char → Bool} {a : List Char} (b : List Char)
    (h : ∀ x ∈ a, p x = true) : (a ++ b).takeWhile p = a ++ b.takeWhile p := by
  induction a with
  | nil => rfl
  | cons c a2 ih =>
    rw [List.cons_append, List.takeWhile_cons, if_pos (h c (List.mem_cons_self c a2)),
      List.cons_append, ih (fun x hx => h x (List.mem_cons_of_mem c hx))]

theorem dropWhile_append_all {p : Char → Bool} {a : List Char} (b : List Char)
    (h : ∀ x ∈ a, p x = true) : (a ++ b).dropWhile p = b.dropWhile p := by
  induction a with
  | nil => rfl
  | cons c a2 ih =>
    rw [List.cons_append, List.dropWhile_cons, if_pos (h c (List.mem_cons_self c a2))]
    exact ih (fun x hx => h x (List.mem_cons_of_mem c hx))

theorem takeWhile_nil_of_ws {a : List Char} (h : ∀ x ∈ a, cIsSpace x = true) :
    a.takeWhile (fun c => !cIsSpace c) = [] := by
  cases a with
  | nil => rfl
  | cons c a2 =>
    rw [List.takeWhile_cons, if_neg]
    rw [h c (List.mem_cons_self c a2)]
    simp

theorem dropWhile_self_of_ws {a : List Char} (h : ∀ x ∈ a, cIsSpace x = true) :
    a.dropWhile (fun c => !cIsSpace c) = a := by
  cases a with
  | nil => rfl
  | cons c a2 =>
    rw [List.dropWhile_cons, if_neg]
    rw [h c (List.mem_cons_self c a2)]
    simp

/-- Tokenizing a single non-whitespace run followed by a whitespace
run yields exactly that token. -/
theorem tokenize_single_token {T Wws : List Char} (hT : T ≠ [])
    (hTn : ∀ x ∈ T, cIsSpace x = false) (hW : ∀ x ∈ Wws, cIsSpace x = true) :
    tokenize (T ++ Wws) = [T] := by
  cases T with
  | nil => exact absurd rfl hT
  | cons c T2 =>
    have hTn2 : ∀ x ∈ (c :: T2), (fun x => !cIsSpace x) x = true := by
      intro x hx
      show (!cIsSpace x) = true
      rw [hTn x hx]
      rfl
    rw [List.cons_append, tokenize_cons_not_ws (hTn c (List.mem_cons_self c T2))]
    rw [show c :: (T2 ++ Wws) = (c :: T2) ++ Wws from rfl]
    rw [takeWhile_append_all Wws hTn2, dropWhile_append_all Wws hTn2]
    rw [takeWhile_nil_of_ws hW, dropWhile_self_of_ws hW, List.append_nil]
    rw [tokenize_all_ws hW]

theorem takeWhile_length_lt_of_mem {p : Char → Bool} {a : List Char} {x : Char}
    (hx : x ∈ a) (hpx : p x = false) : (a.takeWhile p).length < a.length := by
  rcases Nat.lt_or_ge (a.takeWhile p).length a.length with h | h
  · exact h
  · exfalso
    have hle := (List.takeWhile_prefix (l := a) p).length_le
    have heq : a.takeWhile p = a :=
      (List.takeWhile_prefix (l := a) p).eq_of_length (Nat.le_antisymm hle h)
    have := (List.takeWhile_eq_self_iff.1 heq) x hx
    rw [hpx] at this
    exact absurd this (by simp)

theorem takeWhile_append_of_lt {p : Char → Bool} {a : List Char} (b : List Char)
    (h : (a.takeWhile p).length < a.length) :
    (a ++ b).takeWhile p = a.takeWhile p ∧ (a ++ b).dropWhile p = a.dropWhile p ++ b := by
  induction a with
  | nil => simp at h
  | cons c a2 ih =>
    rw [List.cons_append, List.takeWhile_cons, List.dropWhile_cons]
    by_cases hpc : p c
    · rw [List.takeWhile_cons, List.length_cons, if_pos hpc] at h
      rw [if_pos hpc, if_pos hpc, List.takeWhile_cons, if_pos hpc, List.dropWhile_cons,
        if_pos hpc]
      have := ih (by rw [List.length_cons] at h; omega)
      rw [this.1, this.2]
      exact ⟨rfl, rfl⟩
    · rw [if_neg hpc, if_neg hpc, List.takeWhile_cons, if_neg hpc, List.dropWhile_cons,
        if_neg hpc, List.cons_append]
      exact ⟨rfl, rfl⟩

/-- Splitting `tokenize` across an append whose left part ends in
whitespace (or is empty): the whitespace boundary separates the token
lists. -/
theorem tokenize_append_of_endsWS (a : List Char) :
    ∀ b : List Char, endsWS a = true → tokenize (a ++ b) = tokenize a ++ tokenize b := by
  induction a using tokenize.induct with
  | case1 => intro b _; rw [tokenize_nil]; rfl
  | case2 c a2 hc ih =>
    intro b h
    rw [List.cons_append, tokenize_cons_ws hc, tokenize_cons_ws hc]
    cases a2 with
    | nil => rw [tokenize_nil]; rfl
    | cons d a3 =>
      have hends : endsWS (d :: a3) = true := by
        unfold endsWS at h ⊢
        rwa [List.getLast?_cons_cons] at h
      exact ih b hends
  | case3 c a2 hc ih =>
    intro b h
    have hc2 : cIsSpace c = false := by
      cases hcc : cIsSpace c
      · rfl
      · exact absurd hcc hc
    have hlast : ∃ y, (c :: a2).getLast? = some y ∧ cIsSpace y = true := by
      unfold endsWS at h
      rcases hl : (c :: a2).getLast? with _ | y
      · exact absurd (List.getLast?_eq_none_iff.1 hl) (by simp)
      · rw [hl] at h
        exact ⟨y, rfl, by simpa using h⟩
    obtain ⟨y, hy, hyws⟩ := hlast
    have hymem : y ∈ c :: a2 := mem_of_getLast?_eq hy
    have hYnotp : (fun x => !cIsSpace x) y = false := by
      show (!cIsSpace y) = false
      rw [hyws]
      rfl
    have hlt := takeWhile_length_lt_of_mem (p := fun x => !cIsSpace x) hymem hYnotp
    have hsplit := takeWhile_append_of_lt (p := fun x => !cIsSpace x) b hlt
    rw [List.cons_append, tokenize_cons_not_ws hc2,
      show (c :: (a2 ++ b)) = (c :: a2) ++ b from rfl, hsplit.1, hsplit.2,
      tokenize_cons_not_ws hc2]
    rw [List.cons_append]
    congr 1
    have hdsuffix := List.dropWhile_suffix (l := c :: a2) (fun x => !cIsSpace x)
    have hdne : (c :: a2).dropWhile (fun x => !cIsSpace x) ≠ [] := by
      intro hnil
      have hmemtw : y ∈ (c :: a2).takeWhile (fun x => !cIsSpace x) := by
        have halt := List.takeWhile_append_dropWhile (fun x => !cIsSpace x) (c :: a2)
        rw [hnil, List.append_nil] at halt
        rwa [halt]
      have := List.mem_takeWhile_imp hmemtw
      rw [hyws] at this
      simp at this
    have hends2 : endsWS ((c :: a2).dropWhile (fun x => !cIsSpace x)) = true := by
      unfold endsWS
      obtain ⟨pre, hpre⟩ := hdsuffix
      have hlq : ((c :: a2).dropWhile (fun x => !cIsSpace x)).getLast? = some y := by
        rw [← List.getLast?_append_of_ne_nil pre hdne, hpre, hy]
      rw [hlq]
      simpa using hyws
    exact ih b hends2

/-! ### Views of one loop iteration -/

theorem endsWS_of_all_ws {a : List Char} (h : ∀ x ∈ a, cIsSpace x = true) :
    endsWS a = true := by
  unfold endsWS
  rcases hgl : a.getLast? with _ | y
  · rfl
  · have := h y (mem_of_getLast?_eq hgl)
    simp [this]

theorem endsWS_append {X T : List Char} (hT : T ≠ []) (h : endsWS T = true) :
    endsWS (X ++ T) = true := by
  unfold endsWS at h ⊢
  rw [List.getLast?_append_of_ne_nil X hT]
  exact h

/-- Iteration view, case "no whitespace remains": the token is the
whole tail `drop b` and it is whitespace-free. -/
theorem stepView_noSpace {s : List Char} {b : Nat} (hfs : findFirstOf s b = none) :
    wrapEnd s b = none ∧ wrapToken s b = s.drop b ∧
    wrapTokenSize s b = runLen s b ∧ runLen s b = s.length - b ∧
    (∀ x ∈ wrapToken s b, cIsSpace x = false) := by
  have hv := findFirstOf_none_view hfs
  have hend : wrapEnd s b = none := by unfold wrapEnd; rw [hfs]
  have htok : wrapToken s b = s.drop b := by
    unfold wrapToken
    rw [hend]
    exact List.take_of_length_le (by simp [List.length_drop])
  refine ⟨hend, htok, ?_, hv.2.2, ?_⟩
  · unfold wrapTokenSize
    rw [hfs]
    show s.length - b = runLen s b
    rw [hv.2.2]
  · rw [htok]
    exact hv.1

/-- Iteration view, case "only whitespace remains after the token":
the token is the whole tail, ending in an all-whitespace run that
starts at `fs`. -/
theorem stepView_trailing {s : List Char} {b fs : Nat} (hfs : findFirstOf s b = some fs)
    (hnn : findFirstNotOf s (fs + 1) = none) :
    wrapEnd s b = none ∧ wrapToken s b = s.drop b ∧
    wrapTokenSize s b = runLen s b ∧
    s.drop b = (s.drop b).takeWhile (fun c => !cIsSpace c) ++ s.drop fs ∧
    (∀ x ∈ s.drop fs, cIsSpace x = true) ∧ fs = b + runLen s b ∧ fs < s.length := by
  have hend : wrapEnd s b = none := by unfold wrapEnd; rw [hfs]; exact hnn
  have hfsb := findFirstOf_some_runLen hfs
  have hfsl := (findFirstOf_bounds hfs).2
  have htok : wrapToken s b = s.drop b := by
    unfold wrapToken
    rw [hend]
    exact List.take_of_length_le (by simp [List.length_drop])
  refine ⟨hend, htok, ?_, drop_split_at_run hfs, ?_, hfsb, hfsl⟩
  · unfold wrapTokenSize
    rw [hfs]
    show fs - b = runLen s b
    omega
  · intro x hx
    rw [drop_cons_getD s fs hfsl] at hx
    rcases List.mem_cons.1 hx with rfl | hx2
    · exact findFirstOf_char hfs
    · exact findFirstNotOf_none_all hnn x hx2

/-- Iteration view, case "another token follows at `e`": the token is
the non-whitespace run at `b` plus a nonempty all-whitespace run, and
`drop b` splits as `token ++ drop e` with a token start at `e`. -/
theorem stepView_next {s : List Char} {b fs e : Nat} (hfs : findFirstOf s b = some fs)
    (hne : findFirstNotOf s (fs + 1) = some e) :
    wrapEnd s b = some e ∧
    wrapTokenSize s b = runLen s b ∧
    fs = b + runLen s b ∧ fs < e ∧ e < s.length ∧
    wrapToken s b =
      (s.drop b).takeWhile (fun c => !cIsSpace c) ++
        (s.getD fs ' ' :: (s.drop (fs + 1)).takeWhile cIsSpace) ∧
    (∀ x ∈ s.getD fs ' ' :: (s.drop (fs + 1)).takeWhile cIsSpace, cIsSpace x = true) ∧
    s.drop b = wrapToken s b ++ s.drop e ∧
    cIsSpace (s.getD e ' ') = false ∧
    (s.getD fs ' ' :: (s.drop (fs + 1)).takeWhile cIsSpace).length = e - fs := by
  have hend : wrapEnd s b = some e := by unfold wrapEnd; rw [hfs]; exact hne
  have hfsb := findFirstOf_some_runLen hfs
  have hfsl := (findFirstOf_bounds hfs).2
  have helt := (findFirstNotOf_bounds hne).2
  have heeq := findFirstNotOf_some_eq hne
  have hT : s.drop b = (s.drop b).takeWhile (fun c => !cIsSpace c) ++ s.drop fs :=
    drop_split_at_run hfs
  have hfscons : s.drop fs = s.getD fs ' ' :: s.drop (fs + 1) := drop_cons_getD s fs hfsl
  have hWt := drop_split_at_ws hne
  have hTlen : ((s.drop b).takeWhile (fun c => !cIsSpace c)).length = runLen s b := rfl
  have hdecomp : s.drop b =
      (s.drop b).takeWhile (fun c => !cIsSpace c) ++
        (s.getD fs ' ' :: ((s.drop (fs + 1)).takeWhile cIsSpace ++ s.drop e)) := by
    conv_lhs => rw [hT]
    rw [hfscons]
    conv_lhs => rw [hWt.1]
  have hlen : e - b = ((s.drop b).takeWhile (fun c => !cIsSpace c)).length +
      (((s.drop (fs + 1)).takeWhile cIsSpace).length + 1) := by
    rw [hTlen]
    omega
  have htok : wrapToken s b =
      (s.drop b).takeWhile (fun c => !cIsSpace c) ++
        (s.getD fs ' ' :: (s.drop (fs + 1)).takeWhile cIsSpace) := by
    unfold wrapToken
    rw [hend]
    simp only [Option.getD_some]
    conv_lhs => rw [hdecomp, hlen]
    rw [List.take_append]
    congr 1
    rw [List.take_succ_cons]
    congr 1
    exact List.take_left _ _
  have hws : ∀ x ∈ s.getD fs ' ' :: (s.drop (fs + 1)).takeWhile cIsSpace,
      cIsSpace x = true := by
    intro x hx
    rcases List.mem_cons.1 hx with rfl | hx2
    · exact findFirstOf_char hfs
    · exact List.mem_takeWhile_imp hx2
  refine ⟨hend, ?_, hfsb, by omega, helt, htok, hws, ?_, findFirstNotOf_char hne, ?_⟩
  · unfold wrapTokenSize
    rw [hfs]
    show fs - b = runLen s b
    omega
  · rw [htok]
    conv_lhs => rw [hdecomp]
    simp [List.append_assoc]
  · rw [List.length_cons]
    omega

/-- Both components of a `wrapStep`, concatenated: the previous
material followed by the token. -/
theorem wrapStep_concat (cW W : Nat) (s : List Char) (b : Nat) (out row : List Char) :
    (wrapStep cW W s b out row).1 ++ (wrapStep cW W s b out row).2 =
      if row.length + wrapTokenSize s b < W then (out ++ row) ++ wrapToken s b
      else ((out ++ row) ++ ('\n' :: List.replicate cW ' ')) ++ wrapToken s b := by
  unfold wrapStep
  split
  · simp
  · simp

theorem wrapStep_tokenize (cW W : Nat) (s : List Char) (b : Nat) (out row : List Char)
    (hends : endsWS (out ++ row) = true) :
    tokenize ((wrapStep cW W s b out row).1 ++ (wrapStep cW W s b out row).2) =
      tokenize (out ++ row) ++ tokenize (wrapToken s b) := by
  rw [wrapStep_concat]
  split
  · exact tokenize_append_of_endsWS (out ++ row) (wrapToken s b) hends
  · rw [List.append_assoc, tokenize_append_of_endsWS (out ++ row) _ hends]
    congr 1
    rw [List.cons_append]
    rw [tokenize_cons_ws (by rfl)]
    exact tokenize_ws_pre (wrapToken s b) (by
      intro x hx
      rw [List.eq_of_mem_replicate hx]
      rfl)

theorem wrapStep_endsWS (cW W : Nat) (s : List Char) (b : Nat) (out row : List Char)
    (hT : wrapToken s b ≠ []) (hTe : endsWS (wrapToken s b) = true) :
    endsWS ((wrapStep cW W s b out row).1 ++ (wrapStep cW W s b out row).2) = true := by
  rw [wrapStep_concat]
  split
  · exact endsWS_append hT hTe
  · exact endsWS_append hT hTe

/-- Token-preservation invariant of the wrap loop: the tokens of the
produced text are the tokens already accumulated followed by the
tokens of the remaining input. -/
theorem wrapLoop_tokenize (s : List Char) (cW W : Nat) (b : Nat) (out row : List Char) :
    b < s.length → endsWS (out ++ row) = true →
    tokenize (wrapLoop s cW W b out row) = tokenize (out ++ row) ++ tokenize (s.drop b) := by
  induction b, out, row using wrapLoop.induct s cW W with
  | case1 b out row e hend ih =>
    intro hb hends
    obtain ⟨fs, hfs1, hfs2⟩ : ∃ fs, findFirstOf s b = some fs ∧
        findFirstNotOf s (fs + 1) = some e := by
      unfold wrapEnd at hend
      rcases hx : findFirstOf s b with _ | fs
      · rw [hx] at hend; simp at hend
      · rw [hx] at hend; exact ⟨fs, rfl, hend⟩
    obtain ⟨hend2, hts, hfsb, hfse, helt, htok, hWws, hsplit, henws, hWlen⟩ :=
      stepView_next hfs1 hfs2
    have hTne : wrapToken s b ≠ [] := by
      rw [htok]
      simp
    have hTends : endsWS (wrapToken s b) = true := by
      rw [htok]
      exact endsWS_append (by simp) (endsWS_of_all_ws hWws)
    rw [wrapLoop_eq_some out row hend]
    rw [ih helt (wrapStep_endsWS cW W s b out row hTne hTends)]
    rw [wrapStep_tokenize cW W s b out row hends]
    rw [show s.drop b = wrapToken s b ++ s.drop e from hsplit,
      tokenize_append_of_endsWS (wrapToken s b) (s.drop e) hTends]
    rw [List.append_assoc]
  | case2 b out row hend =>
    intro hb hends
    rw [wrapLoop_eq_none out row hend]
    rw [wrapStep_tokenize cW W s b out row hends]
    congr 1
    unfold wrapEnd at hend
    rcases hx : findFirstOf s b with _ | fs
    · rw [(stepView_noSpace hx).2.1]
    · rw [hx] at hend
      rw [(stepView_trailing hx hend).2.1]

/-! ### Lemmas about `linesOf` and the line-length bound -/

theorem linesOf_ne_nil (l : List Char) : linesOf l ≠ [] := by
  cases l with
  | nil => simp [linesOf]
  | cons c cs =>
    unfold linesOf
    split
    · simp
    · split <;> simp

theorem linesOf_newline_cons (l : List Char) : linesOf ('\n' :: l) = [] :: linesOf l := by
  conv_lhs => rw [linesOf]
  rw [if_pos rfl]

theorem linesOf_cons_ne {c : Char} {l : List Char} (hc : ¬(c = '\n')) :
    linesOf (c :: l) = (c :: (linesOf l).headD []) :: (linesOf l).tail := by
  conv_lhs => rw [linesOf]
  rw [if_neg hc]
  rcases hl : linesOf l with _ | ⟨x, xs⟩
  · exact absurd hl (linesOf_ne_nil l)
  · rfl

theorem headD_append_ne_nil {x y : List (List Char)} (hx : x ≠ []) :
    (x ++ y).headD [] = x.headD [] := by
  cases x with
  | nil => exact absurd rfl hx
  | cons a xs => rfl

theorem tail_append_ne_nil {x y : List (List Char)} (hx : x ≠ []) :
    (x ++ y).tail = x.tail ++ y := by
  cases x with
  | nil => exact absurd rfl hx
  | cons a xs => rfl

theorem linesOf_append_newline (a b : List Char) :
    linesOf (a ++ '\n' :: b) = linesOf a ++ linesOf b := by
  induction a with
  | nil => rw [List.nil_append, linesOf_newline_cons]; rfl
  | cons c a2 ih =>
    by_cases hc : c = '\n'
    · subst hc
      rw [List.cons_append, linesOf_newline_cons, linesOf_newline_cons, ih, List.cons_append]
    · rw [List.cons_append, linesOf_cons_ne hc, linesOf_cons_ne hc, ih,
        headD_append_ne_nil (linesOf_ne_nil a2), tail_append_ne_nil (linesOf_ne_nil a2),
        List.cons_append]

theorem linesOf_of_not_mem {a : List Char} (h : '\n' ∉ a) : linesOf a = [a] := by
  induction a with
  | nil => rfl
  | cons c a2 ih =>
    have hc : ¬(c = '\n') := fun hcc => h (hcc ▸ List.mem_cons_self c a2)
    rw [linesOf_cons_ne hc, ih (fun hm => h (List.mem_cons_of_mem c hm))]
    rfl

/-- The line-length invariant survives appending a newline-free row:
every line of `out ++ row` except the first is short. -/
theorem lines_tail_bound_append {W : Nat} {out row : List Char}
    (hinv : ('\n' ∉ out) ∨ ∃ out2, out = out2 ++ ['\n'])
    (hA1 : ∀ l ∈ (linesOf out).tail, l.length ≤ W)
    (hrow : row.length ≤ W) (hnr : '\n' ∉ row) :
    ∀ l ∈ (linesOf (out ++ row)).tail, l.length ≤ W := by
  rcases hinv with hout | ⟨out2, rfl⟩
  · have hno : '\n' ∉ out ++ row := by
      intro hm
      rcases List.mem_append.1 hm with hm2 | hm2
      · exact hout hm2
      · exact hnr hm2
    rw [linesOf_of_not_mem hno]
    intro l hl
    simp at hl
  · rw [List.append_assoc, List.singleton_append, linesOf_append_newline out2 row,
      linesOf_of_not_mem hnr]
    rw [tail_append_ne_nil (linesOf_ne_nil out2)]
    have hA12 : ∀ l ∈ (linesOf out2).tail, l.length ≤ W := by
      intro l hl
      apply hA1
      rw [show out2 ++ ['\n'] = out2 ++ '\n' :: [] from rfl, linesOf_append_newline out2 []]
      rw [tail_append_ne_nil (linesOf_ne_nil out2)]
      exact List.mem_append_left _ hl
    intro l hl
    rcases List.mem_append.1 hl with hl2 | hl2
    · exact hA12 l hl2
    · rw [List.mem_singleton.1 hl2]
      exact hrow

/-- Flushing a row keeps the invariant: every line of
`(out ++ row) ++ ['\n']` except the first is short. -/
theorem lines_tail_bound_flush {W : Nat} {out row : List Char}
    (hinv : ('\n' ∉ out) ∨ ∃ out2, out = out2 ++ ['\n'])
    (hA1 : ∀ l ∈ (linesOf out).tail, l.length ≤ W)
    (hrow : row.length ≤ W) (hnr : '\n' ∉ row) :
    ∀ l ∈ (linesOf ((out ++ row) ++ ['\n'])).tail, l.length ≤ W := by
  rw [show (out ++ row) ++ ['\n'] = (out ++ row) ++ '\n' :: [] from rfl,
    linesOf_append_newline (out ++ row) []]
  rw [tail_append_ne_nil (linesOf_ne_nil (out ++ row))]
  intro l hl
  rcases List.mem_append.1 hl with hl2 | hl2
  · exact lines_tail_bound_append hinv hA1 hrow hnr l hl2
  · rw [show linesOf [] = [[]] from rfl] at hl2
    rw [List.mem_singleton.1 hl2]
    exact Nat.zero_le W

theorem noAdjWS_at {s : List Char} (h : noAdjWS s = true) :
    ∀ i, i + 1 < s.length → cIsSpace (s.getD i ' ') = true →
      cIsSpace (s.getD (i + 1) ' ') = false := by
  induction s with
  | nil => intro i hi; simp at hi
  | cons a s2 ih =>
    intro i hi hws
    cases s2 with
    | nil => simp at hi
    | cons b rest =>
      have hsplit : (!(cIsSpace a && cIsSpace b)) = true ∧ noAdjWS (b :: rest) = true := by
        unfold noAdjWS at h
        exact ⟨by revert h; cases (!(cIsSpace a && cIsSpace b)) <;> simp, by
          revert h; cases noAdjWS (b :: rest) <;> simp⟩
      cases i with
      | zero =>
        have hgb : (a :: b :: rest).getD 1 ' ' = b := rfl
        have hga : (a :: b :: rest).getD 0 ' ' = a := rfl
        rw [hgb]
        rw [hga] at hws
        have := hsplit.1
        rw [hws] at this
        cases hb : cIsSpace b
        · rfl
        · rw [hb] at this; simp at this
      | succ j =>
        have hg1 : (a :: b :: rest).getD (j + 1) ' ' = (b :: rest).getD j ' ' := rfl
        have hg2 : (a :: b :: rest).getD (j + 1 + 1) ' ' = (b :: rest).getD (j + 1) ' ' := rfl
        rw [hg2]
        rw [hg1] at hws
        exact ih hsplit.2 j (by simp at hi ⊢; omega) hws

theorem newline_not_mem {s : List Char} (h : spaceOnlyWS s = true) : '\n' ∉ s := by
  intro hm
  unfold spaceOnlyWS at h
  have := List.all_eq_true.1 h _ hm
  exact absurd this (by decide)

theorem wrapToken_subset {s : List Char} {b : Nat} :
    ∀ x ∈ wrapToken s b, x ∈ s := by
  intro x hx
  unfold wrapToken at hx
  exact List.mem_of_mem_drop (List.mem_of_mem_take hx)

theorem wrapTokenSize_eq_runLen (s : List Char) (b : Nat) :
    wrapTokenSize s b = runLen s b := by
  unfold wrapTokenSize
  rcases hfs : findFirstOf s b with _ | fs
  · show s.length - b = runLen s b
    rw [(findFirstOf_none_view hfs).2.2]
  · show fs - b = runLen s b
    have h1 := findFirstOf_some_runLen hfs
    omega

/-- Under the no-adjacent-whitespace hypothesis the token (with its
trailing whitespace, which then has length at most one) is at most one
longer than the bare run. -/
theorem wrapToken_length_le {s : List Char} {b : Nat} (hadj : noAdjWS s = true) :
    (wrapToken s b).length ≤ runLen s b + 1 := by
  rcases hfs : findFirstOf s b with _ | fs
  · obtain ⟨-, htok, -, hrl, -⟩ := stepView_noSpace hfs
    rw [htok, List.length_drop]
    omega
  · have hfsb := findFirstOf_some_runLen hfs
    have hfsl := (findFirstOf_bounds hfs).2
    have hfsws := findFirstOf_char hfs
    rcases hne : findFirstNotOf s (fs + 1) with _ | e
    · obtain ⟨-, htok, -, hsplit, hws, -, -⟩ := stepView_trailing hfs hne
      rw [htok, List.length_drop]
      rcases Nat.lt_or_ge (fs + 1) s.length with hlt | hge
      · exfalso
        have hmem : s.getD (fs + 1) ' ' ∈ s.drop fs := by
          rw [drop_cons_getD s fs hfsl, drop_cons_getD s (fs + 1) hlt]
          exact List.mem_cons_of_mem _ (List.mem_cons_self _ _)
        have h1 := hws _ hmem
        have h2 := noAdjWS_at hadj fs hlt hfsws
        rw [h1] at h2
        simp at h2
      · omega
    · obtain ⟨-, -, -, hfse, helt, htok, -, -, -, hWlen⟩ := stepView_next hfs hne
      have heeq := findFirstNotOf_some_eq hne
      have hWt0 : ((s.drop (fs + 1)).takeWhile cIsSpace).length = 0 := by
        by_contra h0
        have hlt : fs + 1 < s.length := by omega
        have hne0 : (s.drop (fs + 1)).takeWhile cIsSpace ≠ [] := by
          intro hnil
          rw [hnil] at h0
          simp at h0
        have hheadws : cIsSpace (s.getD (fs + 1) ' ') = true := by
          rcases hd : s.drop (fs + 1) with _ | ⟨c0, rest⟩
          · rw [hd] at hne0; simp [List.takeWhile] at hne0
          · have hc0 : c0 = s.getD (fs + 1) ' ' := by
              rw [drop_cons_getD s (fs + 1) hlt] at hd
              exact (List.cons.injEq _ _ _ _ ▸ hd : _ ∧ _).1.symm
            rw [hd, List.takeWhile_cons] at hne0
            by_cases hcs : cIsSpace c0
            · rw [← hc0]; exact hcs
            · rw [if_neg hcs] at hne0
              exact absurd rfl hne0
        have h2 := noAdjWS_at hadj fs hlt hfsws
        rw [hheadws] at h2
        simp at h2
      rw [htok, List.length_append, List.length_cons, hWt0]
      have : ((s.drop b).takeWhile (fun c => !cIsSpace c)).length = runLen s b := rfl
      omega

/-! ### The wrap theorems -/

theorem take_takeWhile (p : Char → Bool) (l : List Char) :
    l.take (l.takeWhile p).length = l.takeWhile p :=
  (List.prefix_iff_eq_take.1 (List.takeWhile_prefix p)).symm

/-- Token preservation for the whole of `wrap`. -/
theorem wrap_tokenize (s : List Char) (cW W : Nat) :
    tokenize (wrap s cW W) = tokenize s := by
  unfold wrap
  rcases h0 : findFirstNotOf s 0 with _ | b
  · have hall := findFirstNotOf_none_all h0
    rw [List.drop_zero] at hall
    rw [tokenize_nil, tokenize_all_ws hall]
  · have hb := (findFirstNotOf_bounds h0).2
    have hbeq := findFirstNotOf_some_eq h0
    rw [List.drop_zero] at hbeq
    have htake : s.take b = s.takeWhile cIsSpace := by
      rw [show b = (s.takeWhile cIsSpace).length by omega]
      exact take_takeWhile cIsSpace s
    have hws : ∀ x ∈ s.take b, cIsSpace x = true := by
      rw [htake]
      intro x hx
      exact List.mem_takeWhile_imp hx
    rw [wrapLoop_tokenize s cW W b (s.take b) [] hb
      (by rw [List.append_nil]; exact endsWS_of_all_ws hws)]
    rw [List.append_nil, tokenize_all_ws hws, List.nil_append]
    conv_rhs => rw [← List.take_append_drop b s]
    rw [tokenize_ws_pre (s.drop b) hws]

theorem tokenize_cons_le (c : Char) (cs : List Char) :
    ∀ t ∈ tokenize cs, ∃ t2 ∈ tokenize (c :: cs), t.length ≤ t2.length := by
  intro t ht
  by_cases hc : cIsSpace c
  · exact ⟨t, by rw [tokenize_cons_ws hc]; exact ht, Nat.le_refl _⟩
  · have hc2 : cIsSpace c = false := by
      cases h2 : cIsSpace c
      · rfl
      · exact absurd h2 hc
    rw [tokenize_cons_not_ws hc2]
    cases cs with
    | nil => rw [tokenize_nil] at ht; simp at ht
    | cons d ds =>
      by_cases hd : cIsSpace d
      · exact ⟨t, List.mem_cons_of_mem _ (by
          rw [List.dropWhile_cons, if_pos (by rw [hc2]; rfl), List.dropWhile_cons,
            if_neg (by rw [hd]; simp)]
          exact ht), Nat.le_refl _⟩
      · have hd2 : cIsSpace d = false := by
          cases h2 : cIsSpace d
          · rfl
          · exact absurd h2 hd
        have ht1 : (c :: d :: ds).takeWhile (fun x => !cIsSpace x) =
            c :: (d :: ds).takeWhile (fun x => !cIsSpace x) := by
          rw [List.takeWhile_cons, if_pos (by rw [hc2]; rfl)]
        have ht2 : (c :: d :: ds).dropWhile (fun x => !cIsSpace x) =
            (d :: ds).dropWhile (fun x => !cIsSpace x) := by
          rw [List.dropWhile_cons, if_pos (by rw [hc2]; rfl)]
        rw [ht1, ht2]
        rw [tokenize_cons_not_ws hd2] at ht
        rcases List.mem_cons.1 ht with rfl | hmem
        · refine ⟨c :: (d :: ds).takeWhile (fun x => !cIsSpace x),
            List.mem_cons_self _ _, ?_⟩
          rw [List.length_cons]
          omega
        · exact ⟨t, List.mem_cons_of_mem _ hmem, Nat.le_refl _⟩

theorem exists_token_of_run (s : List Char) :
    ∀ i, i < s.length → cIsSpace (s.getD i ' ') = false →
      ∃ t ∈ tokenize s, runLen s i ≤ t.length := by
  induction s with
  | nil => intro i hi; simp at hi
  | cons c cs ih =>
    intro i hi hnw
    cases i with
    | zero =>
      have hc : cIsSpace c = false := hnw
      rw [tokenize_cons_not_ws hc]
      refine ⟨(c :: cs).takeWhile (fun x => !cIsSpace x), List.mem_cons_self _ _, ?_⟩
      unfold runLen
      rw [List.drop_zero]
    | succ j =>
      have hj : j < cs.length := by
        rw [List.length_cons] at hi
        omega
      have hg : (c :: cs).getD (j + 1) ' ' = cs.getD j ' ' := rfl
      rw [hg] at hnw
      obtain ⟨t, hmem, hle⟩ := ih j hj hnw
      obtain ⟨t2, hmem2, hle2⟩ := tokenize_cons_le c cs t hmem
      refine ⟨t2, hmem2, ?_⟩
      have hr : runLen (c :: cs) (j + 1) = runLen cs j := rfl
      omega

theorem wrapStep_invariants (cW W : Nat) (s : List Char) (b : Nat) (out row : List Char)
    (hadj : noAdjWS s = true) (hso : spaceOnlyWS s = true)
    (hpb : cW + runLen s b < W)
    (hrow : row.length ≤ W) (hnr : '\n' ∉ row)
    (hoinv : ('\n' ∉ out) ∨ ∃ out2, out = out2 ++ ['\n'])
    (hA1 : ∀ l ∈ (linesOf out).tail, l.length ≤ W) :
    ((wrapStep cW W s b out row).2).length ≤ W ∧
    ('\n' ∉ (wrapStep cW W s b out row).2) ∧
    (('\n' ∉ (wrapStep cW W s b out row).1) ∨
      ∃ out2, (wrapStep cW W s b out row).1 = out2 ++ ['\n']) ∧
    (∀ l ∈ (linesOf (wrapStep cW W s b out row).1).tail, l.length ≤ W) := by
  have htlen := wrapToken_length_le (s := s) (b := b) hadj
  have hts := wrapTokenSize_eq_runLen s b
  have hnt : '\n' ∉ wrapToken s b := fun hm => newline_not_mem hso (wrapToken_subset _ hm)
  unfold wrapStep
  split
  · rename_i hfit
    rw [hts] at hfit
    refine ⟨?_, ?_, hoinv, hA1⟩
    · rw [List.length_append]
      omega
    · intro hm
      rcases List.mem_append.1 hm with h2 | h2
      · exact hnr h2
      · exact hnt h2
  · refine ⟨?_, ?_, Or.inr ⟨out ++ row, rfl⟩, ?_⟩
    · rw [List.length_append, List.length_replicate]
      omega
    · intro hm
      rcases List.mem_append.1 hm with h2 | h2
      · exact absurd (List.eq_of_mem_replicate h2) (by decide)
      · exact hnt h2
    · exact lines_tail_bound_flush hoinv hA1 hrow hnr

/-- Line-length invariant of the wrap loop under the single-space
hypotheses: no produced line after the first exceeds `W`. -/
theorem wrapLoop_lines (s : List Char) (cW W : Nat)
    (hadj : noAdjWS s = true) (hso : spaceOnlyWS s = true)
    (hp : ∀ i, i < s.length → cIsSpace (s.getD i ' ') = false → cW + runLen s i < W)
    (b : Nat) (out row : List Char) :
    b < s.length → cIsSpace (s.getD b ' ') = false →
    row.length ≤ W → ('\n' ∉ row) →
    (('\n' ∉ out) ∨ ∃ out2, out = out2 ++ ['\n']) →
    (∀ l ∈ (linesOf out).tail, l.length ≤ W) →
    ∀ l ∈ (linesOf (wrapLoop s cW W b out row)).tail, l.length ≤ W := by
  induction b, out, row using wrapLoop.induct s cW W with
  | case1 b out row e hend ih =>
    intro hb hnb hrow hnr hoinv hA1
    obtain ⟨fs, hfs1, hfs2⟩ : ∃ fs, findFirstOf s b = some fs ∧
        findFirstNotOf s (fs + 1) = some e := by
      unfold wrapEnd at hend
      rcases hx : findFirstOf s b with _ | fs
      · rw [hx] at hend; simp at hend
      · rw [hx] at hend; exact ⟨fs, rfl, hend⟩
    have helt := (findFirstNotOf_bounds hfs2).2
    have henws := findFirstNotOf_char hfs2
    have hinv := wrapStep_invariants cW W s b out row hadj hso (hp b hb hnb) hrow hnr
      hoinv hA1
    rw [wrapLoop_eq_some out row hend]
    exact ih helt henws hinv.1 hinv.2.1 hinv.2.2.1 hinv.2.2.2
  | case2 b out row hend =>
    intro hb hnb hrow hnr hoinv hA1
    have hinv := wrapStep_invariants cW W s b out row hadj hso (hp b hb hnb) hrow hnr
      hoinv hA1
    rw [wrapLoop_eq_none out row hend]
    exact lines_tail_bound_append hinv.2.2.1 hinv.2.2.2 hinv.1 hinv.2.1

/-- Line-length bound for the whole of `wrap`. -/
theorem wrap_lines (s : List Char) (cW W : Nat)
    (hadj : noAdjWS s = true) (hso : spaceOnlyWS s = true)
    (htok : ∀ t ∈ tokenize s, cW + t.length < W) :
    ∀ l ∈ (linesOf (wrap s cW W)).tail, l.length ≤ W := by
  have hp : ∀ i, i < s.length → cIsSpace (s.getD i ' ') = false → cW + runLen s i < W := by
    intro i hi hnw
    obtain ⟨t, hmem, hle⟩ := exists_token_of_run s i hi hnw
    have := htok t hmem
    omega
  unfold wrap
  rcases h0 : findFirstNotOf s 0 with _ | b
  · intro l hl
    simp [linesOf] at hl
  · have hbl := (findFirstNotOf_bounds h0).2
    have hnb := findFirstNotOf_char h0
    have hout : '\n' ∉ s.take b := fun hm => newline_not_mem hso (List.mem_of_mem_take hm)
    exact wrapLoop_lines s cW W hadj hso hp b (s.take b) [] hbl hnb (by simp) (by simp)
      (Or.inl hout)
      (by rw [linesOf_of_not_mem hout]; intro l hl; simp at hl)

/-- C7: token preservation holds for `wrap` unconditionally - splitting the
wrapped output at whitespace yields exactly the original token sequence.  The
per-line width bound, however, holds in the form: when the input's tokens are
separated by single ordinary spaces and `colWidth + length(token) < maxWidth`
for every token, every output line after the first has length at most
`maxWidth`.  (The claim's version of the bound - tail lines never exceed `W`
unless some single token exceeds `W` - is refuted separately: the inserted
continuation indentation of `colWidth` spaces counts toward the line length.) -/
theorem wrap_token_preservation_and_line_bound (s : List Char) (cW W : Nat) :
    tokenize (wrap s cW W) = tokenize s ∧
    (noAdjWS s = true → spaceOnlyWS s = true →
      (∀ t ∈ tokenize s, cW + t.length < W) →
      ∀ l ∈ (linesOf (wrap s cW W)).tail, l.length ≤ W) :=
  ⟨wrap_tokenize s cW W, fun hadj hso htok => wrap_lines s cW W hadj hso htok⟩

/-- Witness for C7 at `s = "ab cd"`, `colWidth = 1`, `maxWidth = 10`: the token
sequence is preserved and every line after the first fits in 10 columns. -/
theorem wrap_token_preservation_and_line_bound_witness :
    tokenize (wrap (['a','b',' ','c','d']) 1 10) = tokenize (['a','b',' ','c','d']) ∧
    (∀ l ∈ (linesOf (wrap (['a','b',' ','c','d']) 1 10)).tail, l.length ≤ 10) := by
  have h := wrap_token_preservation_and_line_bound (['a','b',' ','c','d']) 1 10
  refine ⟨h.1, h.2 (by decide) (by decide) ?_⟩
  have ht : tokenize (['a','b',' ','c','d']) = [['a','b'], ['c','d']] := by
    simp [tokenize_cons_not_ws, tokenize_cons_ws, tokenize_nil, cIsSpace]
  rw [ht]
  decide

/-- C7 counterexample: for input `"aa bb cc"` with `colWidth = 10` and
`maxWidth = 5`, every whitespace-delimited token has length 2, well under the
maximum width 5, yet the wrapped output contains a line after the first of
length exceeding 5 (the flush inserts `colWidth = 10` indentation spaces, which
count toward the line length), refuting the claimed bound. -/
theorem wrap_line_overflow_counterexample :
    (∀ t ∈ tokenize (['a','a',' ','b','b',' ','c','c']), t.length ≤ 5) ∧
    ∃ l ∈ (linesOf (wrap (['a','a',' ','b','b',' ','c','c']) 10 5)).tail,
      5 < l.length := by
  have h0 : findFirstNotOf (['a','a',' ','b','b',' ','c','c']) 0 = some 0 := rfl
  have h1 : wrap (['a','a',' ','b','b',' ','c','c']) 10 5 =
      wrapLoop (['a','a',' ','b','b',' ','c','c']) 10 5 0
        ((['a','a',' ','b','b',' ','c','c']).take 0) [] := by
    unfold wrap
    rw [h0]
  have hw : wrap (['a','a',' ','b','b',' ','c','c']) 10 5 =
      ("aa \n          bb \n          cc").toList := by
    rw [h1]
    rw [wrapLoop_eq_some _ _
      (show wrapEnd (['a','a',' ','b','b',' ','c','c']) 0 = some 3 from rfl)]
    rw [wrapLoop_eq_some _ _
      (show wrapEnd (['a','a',' ','b','b',' ','c','c']) 3 = some 6 from rfl)]
    rw [wrapLoop_eq_none _ _
      (show wrapEnd (['a','a',' ','b','b',' ','c','c']) 6 = none from rfl)]
    rfl
  constructor
  · have ht : tokenize (['a','a',' ','b','b',' ','c','c']) =
        [['a','a'], ['b','b'], ['c','c']] := by
      simp [tokenize_cons_not_ws, tokenize_cons_ws, tokenize_nil, cIsSpace]
    rw [ht]
    decide
  · rw [hw]
    decide

end Args
